import Mathlib

/-!
Verification of the contributor-file post-processor (`docs/post_processing_html.py`).

The tool repairs generated static-site asset files: each artifact embeds a
JSON payload inside a JS wrapper (`const e=JSON.parse('…');export{…};`, with
`e`/`t` binding names and quote/backtick delimiters), and the tool decodes the
payload, deduplicates the `git.contributors` collection, re-encodes and
rewrites the file in place.

The embedding below models text as `List Char`, the JSON documents as the
inductive `Json`, Python's `str.replace`/`in` as `strReplace`/`hasSub`,
`json.dumps` (default separators, `ensure_ascii` irrelevant on the encodable
domain) as `dumps`, and `json.loads` as `loads` (a recursive-descent parser
for the grammar `dumps` emits: objects, arrays, strings with `\"`/`\\`
escapes, integers, booleans, null; floats and unicode escapes are outside the
modelled domain).  Errors (Python exceptions) are modelled as `none`.
-/

set_option maxHeartbeats 1000000
set_option maxRecDepth 10000

namespace PostProcess

/-- Documents: the JSON value domain handled by the tool. Object fields are
kept as an ordered association list, matching Python dict insertion order. -/
inductive Json where
  | null : Json
  | bool : Bool → Json
  | int : Int → Json
  | str : List Char → Json
  | arr : List Json → Json
  | obj : List (List Char × Json) → Json

mutual

/-- Decidable equality for `Json`, by structural recursion (so that it
reduces in the kernel and `decide` can evaluate concrete documents). -/
def jdec : (a b : Json) → Decidable (a = b)
  | .null, .null => isTrue rfl
  | .null, .bool _ => isFalse (fun h => Json.noConfusion h)
  | .null, .int _ => isFalse (fun h => Json.noConfusion h)
  | .null, .str _ => isFalse (fun h => Json.noConfusion h)
  | .null, .arr _ => isFalse (fun h => Json.noConfusion h)
  | .null, .obj _ => isFalse (fun h => Json.noConfusion h)
  | .bool _, .null => isFalse (fun h => Json.noConfusion h)
  | .bool a, .bool b =>
    match decEq a b with
    | isTrue h => isTrue (by rw [h])
    | isFalse h => isFalse (fun hh => h (Json.bool.inj hh))
  | .bool _, .int _ => isFalse (fun h => Json.noConfusion h)
  | .bool _, .str _ => isFalse (fun h => Json.noConfusion h)
  | .bool _, .arr _ => isFalse (fun h => Json.noConfusion h)
  | .bool _, .obj _ => isFalse (fun h => Json.noConfusion h)
  | .int _, .null => isFalse (fun h => Json.noConfusion h)
  | .int _, .bool _ => isFalse (fun h => Json.noConfusion h)
  | .int a, .int b =>
    match decEq a b with
    | isTrue h => isTrue (by rw [h])
    | isFalse h => isFalse (fun hh => h (Json.int.inj hh))
  | .int _, .str _ => isFalse (fun h => Json.noConfusion h)
  | .int _, .arr _ => isFalse (fun h => Json.noConfusion h)
  | .int _, .obj _ => isFalse (fun h => Json.noConfusion h)
  | .str _, .null => isFalse (fun h => Json.noConfusion h)
  | .str _, .bool _ => isFalse (fun h => Json.noConfusion h)
  | .str _, .int _ => isFalse (fun h => Json.noConfusion h)
  | .str a, .str b =>
    match decEq a b with
    | isTrue h => isTrue (by rw [h])
    | isFalse h => isFalse (fun hh => h (Json.str.inj hh))
  | .str _, .arr _ => isFalse (fun h => Json.noConfusion h)
  | .str _, .obj _ => isFalse (fun h => Json.noConfusion h)
  | .arr _, .null => isFalse (fun h => Json.noConfusion h)
  | .arr _, .bool _ => isFalse (fun h => Json.noConfusion h)
  | .arr _, .int _ => isFalse (fun h => Json.noConfusion h)
  | .arr _, .str _ => isFalse (fun h => Json.noConfusion h)
  | .arr xs, .arr ys =>
    match jdecL xs ys with
    | isTrue h => isTrue (by rw [h])
    | isFalse h => isFalse (fun hh => h (Json.arr.inj hh))
  | .arr _, .obj _ => isFalse (fun h => Json.noConfusion h)
  | .obj _, .null => isFalse (fun h => Json.noConfusion h)
  | .obj _, .bool _ => isFalse (fun h => Json.noConfusion h)
  | .obj _, .int _ => isFalse (fun h => Json.noConfusion h)
  | .obj _, .str _ => isFalse (fun h => Json.noConfusion h)
  | .obj _, .arr _ => isFalse (fun h => Json.noConfusion h)
  | .obj kvs, .obj kvs2 =>
    match jdecO kvs kvs2 with
    | isTrue h => isTrue (by rw [h])
    | isFalse h => isFalse (fun hh => h (Json.obj.inj hh))

/-- Decidable equality for lists of documents. -/
def jdecL : (xs ys : List Json) → Decidable (xs = ys)
  | [], [] => isTrue rfl
  | [], _ :: _ => isFalse (fun h => List.noConfusion h)
  | _ :: _, [] => isFalse (fun h => List.noConfusion h)
  | x :: xs, y :: ys =>
    match jdec x y, jdecL xs ys with
    | isTrue h1, isTrue h2 => isTrue (by rw [h1, h2])
    | isFalse h1, _ => isFalse (fun h => by
        injection h with hx hxs
        exact h1 hx)
    | _, isFalse h2 => isFalse (fun h => by
        injection h with hx hxs
        exact h2 hxs)

/-- Decidable equality for object field lists. -/
def jdecO : (xs ys : List (List Char × Json)) → Decidable (xs = ys)
  | [], [] => isTrue rfl
  | [], _ :: _ => isFalse (fun h => List.noConfusion h)
  | _ :: _, [] => isFalse (fun h => List.noConfusion h)
  | (k, v) :: xs, (k2, v2) :: ys =>
    match decEq k k2, jdec v v2, jdecO xs ys with
    | isTrue h1, isTrue h2, isTrue h3 => isTrue (by rw [h1, h2, h3])
    | isFalse h1, _, _ => isFalse (fun h => by
        injection h with hp ht
        injection hp with hk hv
        exact h1 hk)
    | _, isFalse h2, _ => isFalse (fun h => by
        injection h with hp ht
        injection hp with hk hv
        exact h2 hv)
    | _, _, isFalse h3 => isFalse (fun h => by
        injection h with hp ht
        exact h3 ht)

end

instance : DecidableEq Json := jdec

instance : Inhabited Json := ⟨Json.null⟩

/-! ### Text primitives: Python `in` and `str.replace` over `List Char` -/
/-- Python's substring test `pat in s`. -/
def hasSub (pat : List Char) : List Char → Bool
  | [] => pat.isPrefixOf []
  | c :: t => pat.isPrefixOf (c :: t) || hasSub pat t

/-- Whether `pat` occurs starting at some index `< n` in `s`. -/
def occursBefore (pat : List Char) : List Char → Nat → Bool
  | _, 0 => false
  | [], _ + 1 => false
  | c :: t, n + 1 => pat.isPrefixOf (c :: t) || occursBefore pat t n

/-- Fuelled worker for `strReplace` (fuel keeps the recursion structural so
that concrete inputs evaluate in the kernel). -/
def strReplaceF : Nat → List Char → List Char → List Char → List Char
  | 0, s, _, _ => s
  | fuel + 1, s, pat, repl =>
    match s with
    | [] => []
    | c :: t =>
      if !pat.isEmpty && pat.isPrefixOf (c :: t) then
        repl ++ strReplaceF fuel ((c :: t).drop pat.length) pat repl
      else
        c :: strReplaceF fuel t pat repl

/-- Python's `s.replace(pat, repl)`: global, leftmost, non-overlapping
replacement, scanning left to right and not rescanning replacements. -/
def strReplace (s pat repl : List Char) : List Char := strReplaceF s.length s pat repl

/-! ### The eight wrapper tokens of `json_source` / the composers -/
/-- Token `const e=JSON.parse('`. -/
def pe1 : List Char := "const e=JSON.parse(\x27".toList

/-- Token `');export{e as data};`. -/
def se1 : List Char := "\x27);export\x7be as data\x7d;".toList

/-- Token `const e=JSON.parse(` followed by a backtick. -/
def pe2 : List Char := "const e=JSON.parse(\x60".toList

/-- Token: backtick followed by `);export{e as data};`. -/
def se2 : List Char := "\x60);export\x7be as data\x7d;".toList

/-- Token `const t=JSON.parse('`. -/
def pt1 : List Char := "const t=JSON.parse(\x27".toList

/-- Token `');export{t as data};`. -/
def st1 : List Char := "\x27);export\x7bt as data\x7d;".toList

/-- Token `const t=JSON.parse(` followed by a backtick. -/
def pt2 : List Char := "const t=JSON.parse(\x60".toList

/-- Token: backtick followed by `);export{t as data};`. -/
def st2 : List Char := "\x60);export\x7bt as data\x7d;".toList

/-- A single backslash (the Python source literal `"\\"`). -/
def bsP : List Char := ['\\']

/-- A doubled backslash (the Python source literal `"\\\\"`). -/
def bsD : List Char := ['\\', '\\']

/-! ### `json.dumps` (default separators: a space after each comma and colon) -/
/-- JSON string escaping of one character, as `json.dumps` performs it on the
printable-ASCII domain: quote and backslash get a backslash prefix. -/
def escChar (c : Char) : List Char := if c = '"' || c = '\\' then ['\\', c] else [c]

/-- JSON string escaping. -/
def escape (s : List Char) : List Char := s.flatMap escChar

/-- Fuelled big-endian decimal digits of a natural number. -/
def digitsF : Nat → Nat → List Char
  | 0, _ => []
  | fuel + 1, n =>
    if n < 10 then [Nat.digitChar n]
    else digitsF fuel (n / 10) ++ [Nat.digitChar (n % 10)]

/-- Decimal digits of a natural number (no sign, no leading zeros). -/
def natChars (n : Nat) : List Char := digitsF (n + 1) n

/-- Python's decimal rendering of an integer. -/
def intChars : Int → List Char
  | .ofNat m => natChars m
  | .negSucc m => '-' :: natChars (m + 1)

mutual

/-- Python's `json.dumps` with its default arguments: compact except for the
default separators `", "` and `": "`, which insert one space after every
comma and colon. -/
def dumps : Json → List Char
  | .null => ['n', 'u', 'l', 'l']
  | .int n => intChars n
  | .bool true => ['t', 'r', 'u', 'e']
  | .str s => '"' :: (escape s ++ ['"'])
  | .bool false => ['f', 'a', 'l', 's', 'e']
  | .arr xs => '[' :: (dumpsElems xs ++ [']'])
  | .obj kvs => '\x7b' :: (dumpsMembers kvs ++ ['\x7d'])

/-- Serialization of the element list of an array (no brackets). -/
def dumpsElems : List Json → List Char
  | [] => []
  | x :: xs => dumps x ++ dumpsTail xs

/-- Serialization of array elements after the first, each preceded by `, `. -/
def dumpsTail : List Json → List Char
  | [] => []
  | x :: xs => ',' :: ' ' :: (dumps x ++ dumpsTail xs)

/-- Serialization of the member list of an object (no braces). -/
def dumpsMembers : List (List Char × Json) → List Char
  | [] => []
  | (k, v) :: kvs =>
    '"' :: (escape k ++ '"' :: ':' :: ' ' :: (dumps v ++ dumpsMTail kvs))

/-- Serialization of object members after the first, each preceded by `, `. -/
def dumpsMTail : List (List Char × Json) → List Char
  | [] => []
  | (k, v) :: kvs =>
    ',' :: ' ' :: '"' :: (escape k ++ '"' :: ':' :: ' ' :: (dumps v ++ dumpsMTail kvs))

end

mutual

/-- Number of grammar nodes of a document; used as a fuel bound for the
parser (`jweight d ≤ (dumps d).length`). -/
def jweight : Json → Nat
  | .null => 1
  | .bool _ => 1
  | .int _ => 1
  | .str _ => 1
  | .arr xs => 1 + jweightL xs
  | .obj kvs => 1 + jweightO kvs

/-- Total weight of array elements. -/
def jweightL : List Json → Nat
  | [] => 0
  | x :: xs => 1 + jweight x + jweightL xs

/-- Total weight of object members. -/
def jweightO : List (List Char × Json) → Nat
  | [] => 0
  | (_, v) :: kvs => 1 + jweight v + jweightO kvs

end

/-! ### `json.loads`: a recursive-descent parser for the grammar `dumps` emits -/
/-- JSON whitespace characters. -/
def isWsChar (c : Char) : Bool := c = ' ' || c = '\n' || c = '\t' || c = '\r'

/-- Drop leading JSON whitespace. -/
def skipWs (s : List Char) : List Char := s.dropWhile isWsChar

/-- Parse the body of a JSON string after the opening quote, accepting the
`\"` and `\\` escapes that `dumps` emits; stops at the closing quote. -/
def parseStr : List Char → Option (List Char × List Char)
  | [] => none
  | c :: r =>
    if c = '"' then some ([], r)
    else if c = '\\' then
      match r with
      | [] => none
      | c2 :: r2 =>
        if c2 = '"' || c2 = '\\' then (parseStr r2).map (fun p => (c2 :: p.1, p.2))
        else none
    else (parseStr r).map (fun p => (c :: p.1, p.2))

/-- Numeric value of a list of decimal digit characters. -/
def digitsVal (ds : List Char) : Nat := ds.foldl (fun a c => 10 * a + (c.toNat - 48)) 0

/-- Parse a non-negative integer literal at the head of `s`. -/
def parseNat (s : List Char) : Option (Json × List Char) :=
  let ds := s.takeWhile Char.isDigit
  if ds.isEmpty then none
  else some (.int (Int.ofNat (digitsVal ds)), s.dropWhile Char.isDigit)

/-- Parse the digits of a negative integer literal (after the minus sign). -/
def parseNegNat (s : List Char) : Option (Json × List Char) :=
  let ds := s.takeWhile Char.isDigit
  if ds.isEmpty then none
  else some (.int (-(Int.ofNat (digitsVal ds))), s.dropWhile Char.isDigit)

mutual

/-- Parse one JSON value (after skipping leading whitespace). -/
def parseVal : Nat → List Char → Option (Json × List Char)
  | 0, _ => none
  | fuel + 1, s =>
    match skipWs s with
    | [] => none
    | c :: r =>
      if c = 'n' then
        match r with
        | 'u' :: 'l' :: 'l' :: r2 => some (.null, r2)
        | _ => none
      else if c = 't' then
        match r with
        | 'r' :: 'u' :: 'e' :: r2 => some (.bool true, r2)
        | _ => none
      else if c = 'f' then
        match r with
        | 'a' :: 'l' :: 's' :: 'e' :: r2 => some (.bool false, r2)
        | _ => none
      else if c = '"' then
        (parseStr r).map (fun p => (.str p.1, p.2))
      else if c = '[' then
        (parseElems fuel r).map (fun p => (.arr p.1, p.2))
      else if c = '\x7b' then
        (parseMembers fuel r).map (fun p => (.obj p.1, p.2))
      else if c = '-' then
        parseNegNat r
      else if c.isDigit then
        parseNat (c :: r)
      else none

/-- Parse array elements up to and including the closing bracket. -/
def parseElems : Nat → List Char → Option (List Json × List Char)
  | 0, _ => none
  | fuel + 1, s =>
    match skipWs s with
    | [] => none
    | c :: r =>
      if c = ']' then some ([], r)
      else
        match parseVal fuel (c :: r) with
        | none => none
        | some (v, r1) =>
          match skipWs r1 with
          | [] => none
          | c2 :: r2 =>
            if c2 = ',' then (parseElems fuel r2).map (fun p => (v :: p.1, p.2))
            else if c2 = ']' then some ([v], r2)
            else none

/-- Parse object members up to and including the closing brace. -/
def parseMembers : Nat → List Char → Option (List (List Char × Json) × List Char)
  | 0, _ => none
  | fuel + 1, s =>
    match skipWs s with
    | [] => none
    | c :: r =>
      if c = '\x7d' then some ([], r)
      else if c = '"' then
        match parseStr r with
        | none => none
        | some (k, r1) =>
          match skipWs r1 with
          | [] => none
          | c2 :: r2 =>
            if c2 = ':' then
              match parseVal fuel r2 with
              | none => none
              | some (v, r3) =>
                match skipWs r3 with
                | [] => none
                | c3 :: r4 =>
                  if c3 = ',' then (parseMembers fuel r4).map (fun p => ((k, v) :: p.1, p.2))
                  else if c3 = '\x7d' then some ([(k, v)], r4)
                  else none
            else none
      else none

end

/-- Python's `json.loads` on the modelled grammar: parse one value, allow
surrounding whitespace, reject trailing garbage; `none` models the
`json.JSONDecodeError` exception. -/
def loads (s : List Char) : Option Json :=
  match parseVal (s.length + 1) s with
  | some (v, r) => if (skipWs r).isEmpty then some v else none
  | none => none

/-! ### The encodable-document domain -/
/-- Characters on which the modelled `dumps` agrees with Python byte for byte:
printable ASCII (controls would be `\uXXXX`-escaped by Python, non-ASCII
likewise under the default `ensure_ascii=True`). -/
def encChar (c : Char) : Bool := 0x20 ≤ c.toNat && c.toNat ≤ 0x7e

/-- Pairwise-distinct object keys (automatic for any document that came from
a Python `dict`). -/
def nodupKeys : List (List Char × Json) → Bool
  | [] => true
  | (k, _) :: t => !(t.any (fun p => p.1 == k)) && nodupKeys t

mutual

/-- The encodable documents: exactly the values a Python `json.loads` of one
of this tool's artifacts can produce, restricted to printable-ASCII strings.
On this domain the modelled `dumps`/`loads` agree with Python's. -/
def encodable : Json → Bool
  | .null => true
  | .bool _ => true
  | .int _ => true
  | .str s => s.all encChar
  | .arr xs => encodableL xs
  | .obj kvs => nodupKeys kvs && encodableO kvs

/-- Encodability of array elements. -/
def encodableL : List Json → Bool
  | [] => true
  | x :: xs => encodable x && encodableL xs

/-- Encodability of object members. -/
def encodableO : List (List Char × Json) → Bool
  | [] => true
  | (k, v) :: kvs => k.all encChar && encodable v && encodableO kvs

end

/-! ### The source functions of `post_processing_html.py` -/
/-- Translation of `json_source(raw_source)`: for each of the four wrapper
templates, if its opening token occurs anywhere in the (current) text, strip
every occurrence of the opening and closing tokens and halve every doubled
backslash; finally `json.loads` the result.  Note the conditions are `in`
tests on the progressively rewritten text and the replacements are global,
exactly as in the Python. -/
def json_source (raw_source : List Char) : Option Json :=
  let r1 := if hasSub pe1 raw_source then
      strReplace (strReplace (strReplace raw_source pe1 []) se1 []) bsD bsP
    else raw_source
  let r2 := if hasSub pe2 r1 then
      strReplace (strReplace (strReplace r1 pe2 []) se2 []) bsD bsP
    else r1
  let r3 := if hasSub pt1 r2 then
      strReplace (strReplace (strReplace r2 pt1 []) st1 []) bsD bsP
    else r2
  let r4 := if hasSub pt2 r3 then
      strReplace (strReplace (strReplace r3 pt2 []) st2 []) bsD bsP
    else r3
  loads r4

/-- Translation of `e_compose_source(dumped)`: wrap with the `const e` +
quote template, then double every backslash in the whole wrapped text. -/
def e_compose_source (dumped : List Char) : List Char :=
  strReplace (pe1 ++ dumped ++ se1) bsP bsD

/-- Translation of `t_compose_source(dumped)`. -/
def t_compose_source (dumped : List Char) : List Char :=
  strReplace (pt1 ++ dumped ++ st1) bsP bsD

/-- Modelled from the spec: the repository has no encoder for the delimiter-B
(backtick) wrapper variants — such files come from the upstream site build.
This follows the spec's template shape (binding name + `PARSE_OPEN_B` payload
`PARSE_CLOSE_B`), with the same backslash doubling as the delimiter-A
composers. -/
def e_compose_source_backtick (dumped : List Char) : List Char :=
  strReplace (pe2 ++ dumped ++ se2) bsP bsD

/-- Modelled from the spec: backtick-delimited `const t` composer. -/
def t_compose_source_backtick (dumped : List Char) : List Char :=
  strReplace (pt2 ++ dumped ++ st2) bsP bsD

/-! ### Python dict model (ordered association list) -/
/-- Python dict assignment `m[k] = v`: overwrite in place if the key exists
(the key keeps its original insertion position), else append. -/
def dictInsert (m : List (List Char × Json)) (k : List Char) (v : Json) :
    List (List Char × Json) :=
  match m with
  | [] => [(k, v)]
  | (k2, v2) :: t => if k2 = k then (k2, v) :: t else (k2, v2) :: dictInsert t k v

/-- Python dict lookup `m[k]` (as an `Option`; `none` models `KeyError`). -/
def lookupKey : List (List Char × Json) → List Char → Option Json
  | [], _ => none
  | (k2, v) :: t, k => if k2 = k then some v else lookupKey t k

/-- Python subscript `d[k]` on a document (`none` models `KeyError` /
`TypeError` on non-dict values). -/
def pyGet (d : Json) (k : List Char) : Option Json :=
  match d with
  | .obj kvs => lookupKey kvs k
  | _ => none

/-- The dict built by a `{k: v for ...}` comprehension: insert each pair in
iteration order. -/
def buildDict (L : List (List Char × Json)) : List (List Char × Json) :=
  L.foldl (fun m p => dictInsert m p.1 p.2) []

/-- Key `"name"`. -/
def nameKey : List Char := "name".toList

/-- Key `"git"`. -/
def gitKey : List Char := "git".toList

/-- Key `"contributors"`. -/
def contributorsKey : List Char := "contributors".toList

/-- The pair `(d["name"], d)` used by the dedup comprehension.  Contributor
names are strings in every artifact (the spec's data model fixes `name` to a
string field), so the dict key is modelled as the name's characters; a record
without a string name is an error (`KeyError`/`TypeError` in Python). -/
def namePairOf (d : Json) : Option (List Char × Json) :=
  match pyGet d nameKey with
  | some (.str s) => some (s, d)
  | _ => none

/-- Name/record pairs for a whole record list (any failure is fatal). -/
def namePairs : List Json → Option (List (List Char × Json))
  | [] => some []
  | d :: ds =>
    match namePairOf d, namePairs ds with
    | some p, some ps => some (p :: ps)
    | _, _ => none

/-- Translation of `remove_duplicated_contributors(contributors)`:
`list({d["name"]: d for d in contributors[::-1]}.values())`. -/
def remove_duplicated_contributors (contributors : List Json) : Option (List Json) :=
  (namePairs contributors.reverse).map (fun L => (buildDict L).map Prod.snd)

/-- Translation of `get_raw_contributors(json_source)`:
`json_source["git"]["contributors"]`. -/
def get_raw_contributors (doc : Json) : Option Json :=
  (pyGet doc gitKey).bind (fun g => pyGet g contributorsKey)

/-- Translation of `append_contributors(json_source, contributors)`: store
the list at `json_source["git"]["contributors"]` and `json.dumps` the
document. -/
def append_contributors (doc : Json) (contributors : List Json) : Option (List Char) :=
  match doc with
  | .obj kvs =>
    match lookupKey kvs gitKey with
    | some (.obj g) =>
      some (dumps (.obj (dictInsert kvs gitKey
        (.obj (dictInsert g contributorsKey (.arr contributors))))))
    | _ => none
  | _ => none

/-- Python `len(x)` (defined on sequences and mappings; `none` models the
`TypeError` on other values). -/
def pyLen : Json → Option Nat
  | .arr xs => some xs.length
  | .str s => some s.length
  | .obj kvs => some kvs.length
  | _ => none

/-- One iteration of the `__main__` loop on one file's content, parametrised
by the composer of the processed set: decode, extract `git.contributors`,
skip when the collection has at most one record (the file is left untouched),
else dedupe, re-embed, re-encode and overwrite.  `some text` is the file's
content afterwards; `none` models an exception, which in the source always
fires before `inject` writes, leaving the file unchanged. -/
def process_with (compose : List Char → List Char) (content : List Char) :
    Option (List Char) :=
  (json_source content).bind fun doc =>
  (get_raw_contributors doc).bind fun raw =>
  (pyLen raw).bind fun n =>
  if 1 < n then
    match raw with
    | .arr xs =>
      (remove_duplicated_contributors xs).bind fun contributors =>
      (append_contributors doc contributors).map fun dumped => compose dumped
    | _ => none
  else some content

/-- Processing of one `const e` contributor file. -/
def process_e : List Char → Option (List Char) := process_with e_compose_source

/-- Processing of one `const t` contributor file. -/
def process_t : List Char → Option (List Char) := process_with t_compose_source

/-- The content of an `e`-classified file after a pipeline run: unchanged
when processing raised before the write. -/
def run_e (content : List Char) : List Char := (process_e content).getD content

/-- The content of a `t`-classified file after a pipeline run. -/
def run_t (content : List Char) : List Char := (process_t content).getD content

/-- Pointwise expansion of one character under backslash doubling. -/
def expandBS (x : Char) : List Char := if x = '\\' then bsD else [x]

/-- Can the head of a remainder be mistaken for more digits?  `restOk rest`
says no: the remainder is empty or starts with a non-digit. -/
def restOk : List Char → Prop
  | [] => True
  | c :: _ => c.isDigit = false

/-- Characters that can start a serialized JSON value. -/
def valHead (c : Char) : Prop :=
  c = 'n' ∨ c = 't' ∨ c = 'f' ∨ c = '"' ∨ c = '[' ∨ c = '\x7b' ∨ c = '-' ∨ c.isDigit = true

/-- Recognizer for the tail of the literal `null`. -/
def litNull (r : List Char) : Option (Json × List Char) :=
  match r with
  | 'u' :: 'l' :: 'l' :: r2 => some (Json.null, r2)
  | _ => none

/-- Recognizer for the tail of the literal `true`. -/
def litTrue (r : List Char) : Option (Json × List Char) :=
  match r with
  | 'r' :: 'u' :: 'e' :: r2 => some (Json.bool true, r2)
  | _ => none

/-- Recognizer for the tail of the literal `false`. -/
def litFalse (r : List Char) : Option (Json × List Char) :=
  match r with
  | 'a' :: 'l' :: 's' :: 'e' :: r2 => some (Json.bool false, r2)
  | _ => none

/-- No token collision for the quote `const e` round trip: the doubled
payload does not contain the opening token, contains the closing token only
as the final suffix, and the decoded payload contains no other opening
token. -/
def cleanE (doc : Json) : Bool :=
  !hasSub pe1 (strReplace (dumps doc) bsP bsD ++ se1)
  && !occursBefore se1 (strReplace (dumps doc) bsP bsD ++ se1)
      (strReplace (dumps doc) bsP bsD).length
  && !hasSub pe2 (dumps doc) && !hasSub pt1 (dumps doc) && !hasSub pt2 (dumps doc)

/-- No token collision for the quote `const t` round trip. -/
def cleanT (doc : Json) : Bool :=
  !hasSub pe1 (pt1 ++ (strReplace (dumps doc) bsP bsD ++ st1))
  && !hasSub pe2 (pt1 ++ (strReplace (dumps doc) bsP bsD ++ st1))
  && !hasSub pt1 (strReplace (dumps doc) bsP bsD ++ st1)
  && !occursBefore st1 (strReplace (dumps doc) bsP bsD ++ st1)
      (strReplace (dumps doc) bsP bsD).length
  && !hasSub pt2 (dumps doc)

/-- No token collision when decoding a backtick `const e` artifact. -/
def cleanEB (doc : Json) : Bool :=
  !hasSub pe1 (pe2 ++ (strReplace (dumps doc) bsP bsD ++ se2))
  && !hasSub pe2 (strReplace (dumps doc) bsP bsD ++ se2)
  && !occursBefore se2 (strReplace (dumps doc) bsP bsD ++ se2)
      (strReplace (dumps doc) bsP bsD).length
  && !hasSub pt1 (dumps doc) && !hasSub pt2 (dumps doc)

/-- No token collision when decoding a backtick `const t` artifact. -/
def cleanTB (doc : Json) : Bool :=
  !hasSub pe1 (pt2 ++ (strReplace (dumps doc) bsP bsD ++ st2))
  && !hasSub pe2 (pt2 ++ (strReplace (dumps doc) bsP bsD ++ st2))
  && !hasSub pt1 (pt2 ++ (strReplace (dumps doc) bsP bsD ++ st2))
  && !hasSub pt2 (strReplace (dumps doc) bsP bsD ++ st2)
  && !occursBefore st2 (strReplace (dumps doc) bsP bsD ++ st2)
      (strReplace (dumps doc) bsP bsD).length

/-- A contributor record with a given name and commit count. -/
def contribRec (name : List Char) (commits : Int) : Json :=
  .obj [(nameKey, .str name), ("commits".toList, .int commits)]

/-- A document whose only string value is exactly the closing token
`');export{e as data};` — the payload then collides with the wrapper
suffix and the global `replace` of `json_source` mangles it. -/
def docBad : Json := .obj [("x".toList, .str se1)]

/-- A well-behaved artifact document with three contributors, two sharing
the name `A`. -/
def doc1 : Json :=
  .obj [(gitKey, .obj [(contributorsKey,
    .arr [contribRec ['A'] 1, contribRec ['B'] 2, contribRec ['A'] 5])])]

/-- The folding of `buildDict` from an arbitrary starting dict. -/
def foldIns (m : List (List Char × Json)) (L : List (List Char × Json)) :
    List (List Char × Json) :=
  L.foldl (fun m p => dictInsert m p.1 p.2) m

/-- The value stored for `k` after inserting all of `L` in order: the last
pair with key `k` wins. -/
def lastVal : List (List Char × Json) → List Char → Option Json
  | [], _ => none
  | p :: L, k =>
    match lastVal L k with
    | some v => some v
    | none => if p.1 = k then some p.2 else none

/-- Keep-first-occurrence deduplication of a key sequence relative to the
keys already seen. -/
def ddfAux (seen : List (List Char)) : List (List Char) → List (List Char)
  | [] => []
  | k :: ks => if k ∈ seen then ddfAux seen ks else k :: ddfAux (k :: seen) ks

/-- Keep-first-occurrence deduplication of a key sequence: the key order of a
Python dict built by repeated assignment. -/
def dedupFirst (ks : List (List Char)) : List (List Char) := ddfAux [] ks

/-- The name of a contributor record with a string `name` field. -/
def theName (d : Json) : List Char :=
  match pyGet d nameKey with
  | some (.str s) => s
  | _ => []

/-- Whether a record has a string `name` field (the domain on which the
dedup comprehension is modelled). -/
def hasStrName (d : Json) : Bool :=
  match pyGet d nameKey with
  | some (.str _) => true
  | _ => false

/-- The three-record example list of the spec: two `A` records around a `B`
record. -/
def exABA : List Json := [contribRec ['A'] 1, contribRec ['B'] 2, contribRec ['A'] 5]

/-- The example artifact: the three-contributor document composed with the
`const e` + quote template. -/
def content1 : List Char := e_compose_source (dumps doc1)

/-- The same three-contributor document composed with the `const t` + quote
template. -/
def content1t : List Char := t_compose_source (dumps doc1)

/-- A valid-JSON artifact that matches none of the four wrapper templates:
its text contains `const e` and `contributors` only as object keys. -/
def doc0 : Json :=
  .obj [("const e".toList, .int 0),
    (gitKey, .obj [(contributorsKey, .arr [contribRec ['a'] 1, contribRec ['a'] 2])])]

/-- The raw content of that artifact. -/
def content0 : List Char := dumps doc0

/-- A template-free artifact whose content is not valid JSON. -/
def contentNoise : List Char := "hello contributors".toList

/-- A single-contributor artifact document. -/
def doc9 : Json := .obj [(gitKey, .obj [(contributorsKey, .arr [contribRec ['A'] 1])])]

/-- The single-contributor artifact content. -/
def content9 : List Char := e_compose_source (dumps doc9)

mutual

/-- True when no string value and no object key of the document contains a
whitespace character. -/
def strsNoWs : Json → Bool
  | .null => true
  | .bool _ => true
  | .int _ => true
  | .str s => s.all (fun c => !isWsChar c)
  | .arr xs => strsNoWsL xs
  | .obj kvs => strsNoWsO kvs

/-- `strsNoWs` over array elements. -/
def strsNoWsL : List Json → Bool
  | [] => true
  | x :: xs => strsNoWs x && strsNoWsL xs

/-- `strsNoWs` over object members (keys and values). -/
def strsNoWsO : List (List Char × Json) → Bool
  | [] => true
  | (k, v) :: kvs => (k.all (fun c => !isWsChar c) && strsNoWs v) && strsNoWsO kvs

end

mutual

/-- Number of separator spaces `dumps` inserts: one after each comma and one
after each colon of the default separators `", "` and `": "`. -/
def sepCount : Json → Nat
  | .null => 0
  | .bool _ => 0
  | .int _ => 0
  | .str _ => 0
  | .arr xs => sepCountElems xs
  | .obj kvs => sepCountMembers kvs

/-- Separator spaces inside a serialized element list. -/
def sepCountElems : List Json → Nat
  | [] => 0
  | x :: xs => sepCount x + sepCountTail xs

/-- Separator spaces contributed by elements after the first (one per `, `). -/
def sepCountTail : List Json → Nat
  | [] => 0
  | x :: xs => 1 + sepCount x + sepCountTail xs

/-- Separator spaces inside a serialized member list (one per `: `). -/
def sepCountMembers : List (List Char × Json) → Nat
  | [] => 0
  | (_, v) :: kvs => 1 + sepCount v + sepCountMTail kvs

/-- Separator spaces contributed by members after the first (one per `, `
plus one per `: `). -/
def sepCountMTail : List (List Char × Json) → Nat
  | [] => 0
  | (_, v) :: kvs => 2 + sepCount v + sepCountMTail kvs

end

/-- A document with whitespace-free strings whose serialization nevertheless
contains a space. -/
def doc7 : Json := .obj [(gitKey, .obj [(contributorsKey, .arr [])])]

/-! ### Laws of `strReplace` -/

theorem strReplaceF_congr : ∀ (fuel fuel' : Nat) (s pat repl : List Char),
    s.length ≤ fuel → s.length ≤ fuel' →
    strReplaceF fuel s pat repl = strReplaceF fuel' s pat repl := by
  intro fuel
  induction fuel with
  | zero =>
    intro fuel' s pat repl h h'
    have hs : s = [] := List.eq_nil_of_length_eq_zero (Nat.le_zero.mp h)
    subst hs
    cases fuel' <;> rfl
  | succ fuel ih =>
    intro fuel' s pat repl h h'
    cases s with
    | nil => cases fuel' <;> rfl
    | cons c t =>
      cases fuel' with
      | zero => simp at h'
      | succ fuel2 =>
        simp only [strReplaceF]
        by_cases hc : (!pat.isEmpty && pat.isPrefixOf (c :: t)) = true
        · rw [if_pos hc, if_pos hc]
          have hplen : 1 ≤ pat.length := by
            cases pat with
            | nil => simp at hc
            | cons p ps => simp
          have hlen : ((c :: t).drop pat.length).length ≤ fuel := by
            simp only [List.length_drop, List.length_cons] at *
            omega
          have hlen2 : ((c :: t).drop pat.length).length ≤ fuel2 := by
            simp only [List.length_drop, List.length_cons] at *
            omega
          rw [ih fuel2 _ pat repl hlen hlen2]
        · rw [if_neg hc, if_neg hc]
          have hlen : t.length ≤ fuel := by
            simp only [List.length_cons] at h
            omega
          have hlen2 : t.length ≤ fuel2 := by
            simp only [List.length_cons] at h'
            omega
          rw [ih fuel2 t pat repl hlen hlen2]

theorem strReplaceF_eq (fuel : Nat) (s pat repl : List Char) (h : s.length ≤ fuel) :
    strReplaceF fuel s pat repl = strReplace s pat repl :=
  strReplaceF_congr fuel s.length s pat repl h (Nat.le_refl _)

theorem strReplace_nil (pat repl : List Char) : strReplace [] pat repl = [] := rfl

theorem strReplace_cons_pos {pat : List Char} (c : Char) (t repl : List Char)
    (h : pat.isPrefixOf (c :: t) = true) (hpat : pat ≠ []) :
    strReplace (c :: t) pat repl = repl ++ strReplace ((c :: t).drop pat.length) pat repl := by
  have hcond : (!pat.isEmpty && pat.isPrefixOf (c :: t)) = true := by
    simp [h, List.isEmpty_iff, hpat]
  show strReplaceF (c :: t).length (c :: t) pat repl = _
  simp only [List.length_cons, strReplaceF, if_pos hcond]
  congr 1
  apply strReplaceF_eq
  have hplen : 1 ≤ pat.length := by
    cases pat with
    | nil => exact absurd rfl hpat
    | cons p ps => simp
  simp only [List.length_drop, List.length_cons]
  omega

theorem strReplace_cons_neg {pat : List Char} (c : Char) (t repl : List Char)
    (h : pat.isPrefixOf (c :: t) = false) :
    strReplace (c :: t) pat repl = c :: strReplace t pat repl := by
  have hcond : ¬((!pat.isEmpty && pat.isPrefixOf (c :: t)) = true) := by
    simp [h]
  show strReplaceF (c :: t).length (c :: t) pat repl = _
  simp only [List.length_cons, strReplaceF, if_neg hcond]
  congr 1

/-- A text with no occurrence of the pattern is left unchanged. -/
theorem strReplace_of_hasSub_false {pat : List Char} (s repl : List Char)
    (h : hasSub pat s = false) : strReplace s pat repl = s := by
  induction s with
  | nil => rfl
  | cons c t ih =>
    simp only [hasSub, Bool.or_eq_false_iff] at h
    rw [strReplace_cons_neg c t repl h.1, ih h.2]

/-- Replacement at an exact occurrence at the head. -/
theorem strReplace_prefix_eat {pat : List Char} (t repl : List Char) (hpat : pat ≠ []) :
    strReplace (pat ++ t) pat repl = repl ++ strReplace t pat repl := by
  cases pat with
  | nil => exact absurd rfl hpat
  | cons p ps =>
    rw [List.cons_append, strReplace_cons_pos p (ps ++ t) repl
      (List.isPrefixOf_iff_prefix.mpr (by rw [← List.cons_append]; exact List.prefix_append _ t))
      hpat]
    congr 1
    rw [← List.cons_append, List.drop_left]

/-- A replacement pass walks over a region where the pattern never starts. -/
theorem strReplace_append_no_occ {pat : List Char} (a t repl : List Char)
    (h : occursBefore pat (a ++ t) a.length = false) :
    strReplace (a ++ t) pat repl = a ++ strReplace t pat repl := by
  induction a with
  | nil => rfl
  | cons c a' ih =>
    simp only [List.cons_append, List.length_cons, occursBefore,
      Bool.or_eq_false_iff] at h
    rw [List.cons_append, strReplace_cons_neg c (a' ++ t) repl h.1, ih h.2, List.cons_append]

/-- Single-character patterns replace pointwise. -/
theorem strReplace_single (c : Char) (repl s : List Char) :
    strReplace s [c] repl = s.flatMap (fun x => if x = c then repl else [x]) := by
  induction s with
  | nil => rfl
  | cons x t ih =>
    by_cases hx : x = c
    · subst hx
      rw [strReplace_cons_pos x t repl (by simp [List.isPrefixOf]) (by simp)]
      simp [ih]
    · rw [strReplace_cons_neg x t repl (by simp [List.isPrefixOf, Ne.symm hx])]
      simp [hx, ih]

theorem doubleBS_flat (s : List Char) :
    strReplace s bsP bsD = s.flatMap expandBS :=
  strReplace_single '\\' bsD s

/-- Doubling backslashes distributes over concatenation. -/
theorem doubleBS_append (a b : List Char) :
    strReplace (a ++ b) bsP bsD = strReplace a bsP bsD ++ strReplace b bsP bsD := by
  simp [doubleBS_flat]

/-- Doubling backslashes fixes backslash-free text. -/
theorem doubleBS_id (a : List Char) (h : '\\' ∉ a) : strReplace a bsP bsD = a := by
  rw [doubleBS_flat]
  induction a with
  | nil => rfl
  | cons c t ih =>
    simp only [List.mem_cons, not_or] at h
    simp [expandBS, Ne.symm h.1, ih h.2]

/-- Halving the doubled backslashes restores the original text: the
escape/unescape pair of the codec is exact. -/
theorem halve_double (s : List Char) :
    strReplace (strReplace s bsP bsD) bsD bsP = s := by
  rw [doubleBS_flat]
  induction s with
  | nil => rfl
  | cons c t ih =>
    by_cases hc : c = '\\'
    · subst hc
      have h1 : ('\\' :: t).flatMap expandBS = '\\' :: '\\' :: t.flatMap expandBS := by
        simp [expandBS, bsD]
      rw [h1, strReplace_cons_pos '\\' ('\\' :: t.flatMap expandBS) bsP
        (by simp [bsD, List.isPrefixOf]) (by simp [bsD])]
      show bsP ++ strReplace (t.flatMap expandBS) bsD bsP = '\\' :: t
      rw [ih]
      rfl
    · have h1 : (c :: t).flatMap expandBS = c :: t.flatMap expandBS := by
        simp [expandBS, hc]
      rw [h1, strReplace_cons_neg c (t.flatMap expandBS) bsP
        (by simp [bsD, List.isPrefixOf, Ne.symm hc]), ih]

/-- A pattern that is a prefix is a substring. -/
theorem hasSub_of_isPrefixOf {pat s : List Char} (h : pat.isPrefixOf s = true) :
    hasSub pat s = true := by
  cases s with
  | nil => exact h
  | cons c t => simp [hasSub, h]

/-! ### Decimal digits round-trip -/

theorem digitChar_isDigit {n : Nat} (h : n < 10) : (Nat.digitChar n).isDigit = true := by
  interval_cases n <;> decide

theorem digitChar_toNat {n : Nat} (h : n < 10) : (Nat.digitChar n).toNat = 48 + n := by
  interval_cases n <;> decide

theorem digitsF_congr : ∀ (fuel fuel' n : Nat), n < fuel → n < fuel' →
    digitsF fuel n = digitsF fuel' n := by
  intro fuel
  induction fuel with
  | zero => intro fuel' n h h'; omega
  | succ fuel ih =>
    intro fuel' n h h'
    cases fuel' with
    | zero => omega
    | succ fuel2 =>
      simp only [digitsF]
      by_cases h10 : n < 10
      · rw [if_pos h10, if_pos h10]
      · rw [if_neg h10, if_neg h10]
        have hdiv : n / 10 < n := Nat.div_lt_self (by omega) (by omega)
        rw [ih fuel2 (n / 10) (by omega) (by omega)]

theorem digitsF_eq {fuel n : Nat} (h : n < fuel) : digitsF fuel n = natChars n :=
  digitsF_congr fuel (n + 1) n h (Nat.lt_succ_self n)

theorem natChars_all_digits : ∀ (n : Nat), ∀ c ∈ natChars n, c.isDigit = true := by
  have key : ∀ (fuel n : Nat), n < fuel → ∀ c ∈ digitsF fuel n, c.isDigit = true := by
    intro fuel
    induction fuel with
    | zero => intro n h; omega
    | succ fuel ih =>
      intro n h c hc
      simp only [digitsF] at hc
      by_cases h10 : n < 10
      · rw [if_pos h10] at hc
        simp only [List.mem_singleton] at hc
        subst hc
        exact digitChar_isDigit h10
      · rw [if_neg h10] at hc
        rcases List.mem_append.mp hc with h1 | h2
        · exact ih (n / 10) (by
            have := @Nat.div_lt_self n 10 (by omega) (by omega)
            omega) c h1
        · simp only [List.mem_singleton] at h2
          subst h2
          exact digitChar_isDigit (Nat.mod_lt n (by omega))
  intro n
  exact key (n + 1) n (Nat.lt_succ_self n)

theorem natChars_ne_nil (n : Nat) : natChars n ≠ [] := by
  show digitsF (n + 1) n ≠ []
  simp only [digitsF]
  by_cases h10 : n < 10
  · rw [if_pos h10]; simp
  · rw [if_neg h10]; simp

theorem digitsVal_append_digit (ds : List Char) (c : Char) :
    digitsVal (ds ++ [c]) = 10 * digitsVal ds + (c.toNat - 48) := by
  simp [digitsVal, List.foldl_append]

theorem digitsVal_natChars : ∀ (n : Nat), digitsVal (natChars n) = n := by
  have key : ∀ (fuel n : Nat), n < fuel → digitsVal (digitsF fuel n) = n := by
    intro fuel
    induction fuel with
    | zero => intro n h; omega
    | succ fuel ih =>
      intro n h
      simp only [digitsF]
      by_cases h10 : n < 10
      · rw [if_pos h10]
        show digitsVal ([] ++ [Nat.digitChar n]) = n
        rw [digitsVal_append_digit, digitChar_toNat h10]
        simp [digitsVal]
      · rw [if_neg h10]
        rw [digitsVal_append_digit, ih (n / 10) (by
          have := @Nat.div_lt_self n 10 (by omega) (by omega)
          omega), digitChar_toNat (Nat.mod_lt n (by omega))]
        omega
  intro n
  exact key (n + 1) n (Nat.lt_succ_self n)

theorem takeWhile_digits_append {ds rest : List Char}
    (h1 : ∀ c ∈ ds, c.isDigit = true) (h2 : restOk rest) :
    (ds ++ rest).takeWhile Char.isDigit = ds ∧ (ds ++ rest).dropWhile Char.isDigit = rest := by
  induction ds with
  | nil =>
    cases rest with
    | nil => exact ⟨rfl, rfl⟩
    | cons c r =>
      simp only [restOk] at h2
      simp [List.takeWhile, List.dropWhile, h2]
  | cons d ds ih =>
    have hd : d.isDigit = true := h1 d (List.mem_cons_self d ds)
    have ihr := ih (fun c hc => h1 c (List.mem_cons_of_mem d hc))
    simp [List.takeWhile, List.dropWhile, hd, ihr.1, ihr.2]

/-! ### Whitespace and string-body parsing -/

theorem skipWs_cons_not_ws {c : Char} (r : List Char) (h : isWsChar c = false) :
    skipWs (c :: r) = c :: r := by
  simp [skipWs, List.dropWhile, h]

theorem skipWs_cons_ws {c : Char} (r : List Char) (h : isWsChar c = true) :
    skipWs (c :: r) = skipWs r := by
  simp [skipWs, List.dropWhile, h]

theorem skipWs_comma (r : List Char) : skipWs (',' :: r) = ',' :: r :=
  skipWs_cons_not_ws r (by decide)

theorem skipWs_rbrack (r : List Char) : skipWs (']' :: r) = ']' :: r :=
  skipWs_cons_not_ws r (by decide)

theorem skipWs_rbrace (r : List Char) : skipWs ('\x7d' :: r) = '\x7d' :: r :=
  skipWs_cons_not_ws r (by decide)

theorem skipWs_colon (r : List Char) : skipWs (':' :: r) = ':' :: r :=
  skipWs_cons_not_ws r (by decide)

theorem skipWs_space (r : List Char) : skipWs (' ' :: r) = skipWs r :=
  skipWs_cons_ws r (by decide)

/-- The escaped body of a string parses back, leaving the remainder after the
closing quote untouched. -/
theorem parseStr_escape : ∀ (s rest : List Char),
    parseStr (escape s ++ '"' :: rest) = some (s, rest) := by
  intro s
  induction s with
  | nil =>
    intro rest
    have he : escape [] = [] := rfl
    rw [he, List.nil_append, parseStr.eq_def]
    simp
  | cons c t ih =>
    intro rest
    by_cases hc : c = '"' ∨ c = '\\'
    · have he : escape (c :: t) = '\\' :: c :: escape t := by
        rcases hc with h | h <;> simp [escape, escChar, h]
      have hbs : ¬('\\' : Char) = '"' := by decide
      have hcc : (c = '"' || c = '\\') = true := by
        rcases hc with h | h <;> simp [h]
      rw [he, List.cons_append, List.cons_append, parseStr.eq_def]
      simp [hbs, hcc, ih rest]
    · push_neg at hc
      have he : escape (c :: t) = c :: escape t := by simp [escape, escChar, hc.1, hc.2]
      rw [he, List.cons_append, parseStr.eq_def]
      simp [hc.1, hc.2, ih rest]

/-! ### Head characters of serialized values -/

theorem digit_not_ws {c : Char} (h : c.isDigit = true) : isWsChar c = false := by
  cases hiw : isWsChar c with
  | false => rfl
  | true =>
    simp only [isWsChar, Bool.or_eq_true, decide_eq_true_eq] at hiw
    rcases hiw with ((h1 | h1) | h1) | h1 <;> (subst h1; exact absurd h (by decide))

theorem digit_ne {c : Char} (h : c.isDigit = true) (x : Char) (hx : x.isDigit = false) :
    ¬c = x := by
  intro he
  subst he
  rw [h] at hx
  exact absurd hx (by decide)

theorem valHead_not_ws {c : Char} (h : valHead c) : isWsChar c = false := by
  rcases h with h | h | h | h | h | h | h | h
  · subst h; decide
  · subst h; decide
  · subst h; decide
  · subst h; decide
  · subst h; decide
  · subst h; decide
  · subst h; decide
  · exact digit_not_ws h

theorem valHead_ne_close {c : Char} (h : valHead c) :
    ¬c = ']' ∧ ¬c = '\x7d' ∧ ¬c = ',' := by
  rcases h with h | h | h | h | h | h | h | h
  · subst h; exact ⟨by decide, by decide, by decide⟩
  · subst h; exact ⟨by decide, by decide, by decide⟩
  · subst h; exact ⟨by decide, by decide, by decide⟩
  · subst h; exact ⟨by decide, by decide, by decide⟩
  · subst h; exact ⟨by decide, by decide, by decide⟩
  · subst h; exact ⟨by decide, by decide, by decide⟩
  · subst h; exact ⟨by decide, by decide, by decide⟩
  · exact ⟨digit_ne h _ (by decide), digit_ne h _ (by decide), digit_ne h _ (by decide)⟩

theorem natChars_head (m : Nat) : ∃ c r, natChars m = c :: r ∧ c.isDigit = true := by
  cases hnc : natChars m with
  | nil => exact absurd hnc (natChars_ne_nil m)
  | cons c r =>
    refine ⟨c, r, rfl, ?_⟩
    have := natChars_all_digits m c (by rw [hnc]; exact List.mem_cons_self c r)
    exact this

/-- Every serialized value is nonempty and starts with a value-head char. -/
theorem dumps_head : ∀ (d : Json), ∃ c r, dumps d = c :: r ∧ valHead c := by
  intro d
  cases d with
  | null => exact ⟨'n', _, rfl, Or.inl rfl⟩
  | bool b =>
    cases b with
    | true => exact ⟨'t', _, rfl, Or.inr (Or.inl rfl)⟩
    | false => exact ⟨'f', _, rfl, Or.inr (Or.inr (Or.inl rfl))⟩
  | int n =>
    cases n with
    | ofNat m =>
      obtain ⟨c, r, hcr, hd⟩ := natChars_head m
      exact ⟨c, r, hcr, Or.inr (Or.inr (Or.inr (Or.inr (Or.inr (Or.inr (Or.inr hd))))))⟩
    | negSucc m =>
      exact ⟨'-', _, rfl, Or.inr (Or.inr (Or.inr (Or.inr (Or.inr (Or.inr (Or.inl rfl))))))⟩
  | str s => exact ⟨'"', _, rfl, Or.inr (Or.inr (Or.inr (Or.inl rfl)))⟩
  | arr xs => exact ⟨'[', _, rfl, Or.inr (Or.inr (Or.inr (Or.inr (Or.inl rfl))))⟩
  | obj kvs => exact ⟨'\x7b', _, rfl, Or.inr (Or.inr (Or.inr (Or.inr (Or.inr (Or.inl rfl)))))⟩

theorem skipWs_dumps_append (d : Json) (rest : List Char) :
    skipWs (dumps d ++ rest) = dumps d ++ rest := by
  obtain ⟨c, r, hcr, hv⟩ := dumps_head d
  rw [hcr, List.cons_append, skipWs_cons_not_ws _ (valHead_not_ws hv)]

theorem jweight_pos : ∀ (d : Json), 1 ≤ jweight d := by
  intro d
  cases d <;> simp [jweight]

/-- `parseVal` only looks at its input through `skipWs`. -/
theorem parseVal_drop_ws (fuel : Nat) (c : Char) (s : List Char) (hc : isWsChar c = true) :
    parseVal fuel (c :: s) = parseVal fuel s := by
  cases fuel with
  | zero => rfl
  | succ f =>
    simp only [parseVal]
    rw [skipWs_cons_ws s hc]

theorem restOk_dumpsTail (xs : List Json) (rest : List Char) :
    restOk (dumpsTail xs ++ ']' :: rest) := by
  cases xs with
  | nil => simp [dumpsTail, restOk]
  | cons y ys => simp [dumpsTail, restOk]

theorem restOk_dumpsMTail (kvs : List (List Char × Json)) (rest : List Char) :
    restOk (dumpsMTail kvs ++ '\x7d' :: rest) := by
  cases kvs with
  | nil => simp [dumpsMTail, restOk]
  | cons p ps =>
    obtain ⟨k, v⟩ := p
    simp [dumpsMTail, restOk]

/-! ### The parser inverts the serializer -/

theorem skipWs_head_not_ws : ∀ (s : List Char) {c : Char} {r : List Char},
    skipWs s = c :: r → isWsChar c = false := by
  intro s
  induction s with
  | nil => intro c r h; exact absurd h (by simp [skipWs])
  | cons a t ih =>
    intro c r h
    by_cases ha : isWsChar a = true
    · rw [skipWs_cons_ws t ha] at h
      exact ih h
    · have haf : isWsChar a = false := by
        cases hb : isWsChar a with
        | false => rfl
        | true => exact absurd hb ha
      rw [skipWs_cons_not_ws t haf] at h
      injection h with h1 h2
      subst h1
      exact haf

theorem skipWs_idem (s : List Char) : skipWs (skipWs s) = skipWs s := by
  induction s with
  | nil => rfl
  | cons a t ih =>
    by_cases ha : isWsChar a = true
    · rw [skipWs_cons_ws t ha]
      exact ih
    · have haf : isWsChar a = false := by
        cases hb : isWsChar a with
        | false => rfl
        | true => exact absurd hb ha
      rw [skipWs_cons_not_ws t haf, skipWs_cons_not_ws t haf]

theorem parseVal_skipWs_arg (fuel : Nat) (s : List Char) :
    parseVal fuel s = parseVal fuel (skipWs s) := by
  cases fuel with
  | zero => rfl
  | succ f =>
    simp only [parseVal]
    rw [skipWs_idem]

theorem parseElems_skipWs_arg (fuel : Nat) (s : List Char) :
    parseElems fuel s = parseElems fuel (skipWs s) := by
  cases fuel with
  | zero => rfl
  | succ f =>
    simp only [parseElems]
    rw [skipWs_idem]

theorem parseMembers_skipWs_arg (fuel : Nat) (s : List Char) :
    parseMembers fuel s = parseMembers fuel (skipWs s) := by
  cases fuel with
  | zero => rfl
  | succ f =>
    simp only [parseMembers]
    rw [skipWs_idem]

theorem parseVal_cons (f : Nat) (c : Char) (r : List Char)
    (hc : isWsChar c = false) :
    parseVal (f + 1) (c :: r) =
      if c = 'n' then litNull r
      else if c = 't' then litTrue r
      else if c = 'f' then litFalse r
      else if c = '"' then (parseStr r).map (fun p => (Json.str p.1, p.2))
      else if c = '[' then (parseElems f r).map (fun p => (Json.arr p.1, p.2))
      else if c = '\x7b' then (parseMembers f r).map (fun p => (Json.obj p.1, p.2))
      else if c = '-' then parseNegNat r
      else if c.isDigit then parseNat (c :: r)
      else none := by
  simp only [parseVal, litNull, litTrue, litFalse]
  rw [skipWs_cons_not_ws r hc]

theorem parseVal_eq (f : Nat) (s : List Char) (c : Char) (r : List Char)
    (hs : skipWs s = c :: r) :
    parseVal (f + 1) s =
      if c = 'n' then litNull r
      else if c = 't' then litTrue r
      else if c = 'f' then litFalse r
      else if c = '"' then (parseStr r).map (fun p => (Json.str p.1, p.2))
      else if c = '[' then (parseElems f r).map (fun p => (Json.arr p.1, p.2))
      else if c = '\x7b' then (parseMembers f r).map (fun p => (Json.obj p.1, p.2))
      else if c = '-' then parseNegNat r
      else if c.isDigit then parseNat (c :: r)
      else none := by
  rw [parseVal_skipWs_arg (f + 1) s, hs]
  exact parseVal_cons f c r (skipWs_head_not_ws s hs)

theorem parseElems_cons (f : Nat) (c : Char) (r : List Char)
    (hc : isWsChar c = false) :
    parseElems (f + 1) (c :: r) =
      if c = ']' then some ([], r)
      else
        match parseVal f (c :: r) with
        | none => none
        | some (v, r1) =>
          match skipWs r1 with
          | [] => none
          | c2 :: r2 =>
            if c2 = ',' then (parseElems f r2).map (fun p => (v :: p.1, p.2))
            else if c2 = ']' then some ([v], r2)
            else none := by
  simp only [parseElems]
  rw [skipWs_cons_not_ws r hc]

theorem parseElems_eq (f : Nat) (s : List Char) (c : Char) (r : List Char)
    (hs : skipWs s = c :: r) :
    parseElems (f + 1) s =
      if c = ']' then some ([], r)
      else
        match parseVal f (c :: r) with
        | none => none
        | some (v, r1) =>
          match skipWs r1 with
          | [] => none
          | c2 :: r2 =>
            if c2 = ',' then (parseElems f r2).map (fun p => (v :: p.1, p.2))
            else if c2 = ']' then some ([v], r2)
            else none := by
  rw [parseElems_skipWs_arg (f + 1) s, hs]
  exact parseElems_cons f c r (skipWs_head_not_ws s hs)

theorem parseMembers_cons (f : Nat) (c : Char) (r : List Char)
    (hc : isWsChar c = false) :
    parseMembers (f + 1) (c :: r) =
      if c = '\x7d' then some ([], r)
      else if c = '"' then
        match parseStr r with
        | none => none
        | some (k, r1) =>
          match skipWs r1 with
          | [] => none
          | c2 :: r2 =>
            if c2 = ':' then
              match parseVal f r2 with
              | none => none
              | some (v, r3) =>
                match skipWs r3 with
                | [] => none
                | c3 :: r4 =>
                  if c3 = ',' then (parseMembers f r4).map (fun p => ((k, v) :: p.1, p.2))
                  else if c3 = '\x7d' then some ([(k, v)], r4)
                  else none
            else none
      else none := by
  simp only [parseMembers]
  rw [skipWs_cons_not_ws r hc]

theorem parseMembers_eq (f : Nat) (s : List Char) (c : Char) (r : List Char)
    (hs : skipWs s = c :: r) :
    parseMembers (f + 1) s =
      if c = '\x7d' then some ([], r)
      else if c = '"' then
        match parseStr r with
        | none => none
        | some (k, r1) =>
          match skipWs r1 with
          | [] => none
          | c2 :: r2 =>
            if c2 = ':' then
              match parseVal f r2 with
              | none => none
              | some (v, r3) =>
                match skipWs r3 with
                | [] => none
                | c3 :: r4 =>
                  if c3 = ',' then (parseMembers f r4).map (fun p => ((k, v) :: p.1, p.2))
                  else if c3 = '\x7d' then some ([(k, v)], r4)
                  else none
            else none
      else none := by
  rw [parseMembers_skipWs_arg (f + 1) s, hs]
  exact parseMembers_cons f c r (skipWs_head_not_ws s hs)

mutual

/-- `parseVal` consumes exactly the serialization of a document, whatever
follows (as long as the follower cannot extend a digit run). -/
theorem parseVal_dumps : ∀ (d : Json) (fuel : Nat) (rest : List Char),
    jweight d < fuel → restOk rest →
    parseVal fuel (dumps d ++ rest) = some (d, rest)
  | .null, fuel, rest, h, hr => by
    cases fuel with
    | zero => exact absurd h (by simp [jweight])
    | succ f =>
      rw [show dumps Json.null ++ rest = 'n' :: ('u' :: 'l' :: 'l' :: rest) from rfl,
        parseVal_eq f _ 'n' _ (skipWs_cons_not_ws _ (by decide))]
      simp [litNull]
  | .bool true, fuel, rest, h, hr => by
    cases fuel with
    | zero => exact absurd h (by simp [jweight])
    | succ f =>
      rw [show dumps (Json.bool true) ++ rest = 't' :: ('r' :: 'u' :: 'e' :: rest) from rfl,
        parseVal_eq f _ 't' _ (skipWs_cons_not_ws _ (by decide))]
      simp [litTrue]
  | .bool false, fuel, rest, h, hr => by
    cases fuel with
    | zero => exact absurd h (by simp [jweight])
    | succ f =>
      rw [show dumps (Json.bool false) ++ rest = 'f' :: ('a' :: 'l' :: 's' :: 'e' :: rest) from rfl,
        parseVal_eq f _ 'f' _ (skipWs_cons_not_ws _ (by decide))]
      simp [litFalse]
  | .str s, fuel, rest, h, hr => by
    cases fuel with
    | zero => exact absurd h (by simp [jweight])
    | succ f =>
      have harr : dumps (.str s) ++ rest = '"' :: (escape s ++ '"' :: rest) := by
        simp [dumps]
      rw [harr, parseVal_eq f _ '"' _ (skipWs_cons_not_ws _ (by decide))]
      simp [parseStr_escape s rest]
  | .int (Int.ofNat m), fuel, rest, h, hr => by
    cases fuel with
    | zero => exact absurd h (by simp [jweight])
    | succ f =>
      obtain ⟨c, r, hcr, hdg⟩ := natChars_head m
      have harr : dumps (.int (Int.ofNat m)) ++ rest = c :: (r ++ rest) := by
        simp [dumps, intChars, hcr]
      rw [harr, parseVal_eq f _ c _ (skipWs_cons_not_ws _ (digit_not_ws hdg))]
      rw [if_neg (digit_ne hdg 'n' (by decide)), if_neg (digit_ne hdg 't' (by decide)),
        if_neg (digit_ne hdg 'f' (by decide)), if_neg (digit_ne hdg '"' (by decide)),
        if_neg (digit_ne hdg '[' (by decide)), if_neg (digit_ne hdg '\x7b' (by decide)),
        if_neg (digit_ne hdg '-' (by decide)), if_pos hdg]
      have hback : c :: (r ++ rest) = natChars m ++ rest := by
        rw [hcr, List.cons_append]
      rw [hback]
      have htw := @takeWhile_digits_append (natChars m) rest
        (natChars_all_digits m) hr
      simp [parseNat, htw.1, htw.2, List.isEmpty_iff, natChars_ne_nil, digitsVal_natChars]
  | .int (Int.negSucc m), fuel, rest, h, hr => by
    cases fuel with
    | zero => exact absurd h (by simp [jweight])
    | succ f =>
      have harr : dumps (.int (Int.negSucc m)) ++ rest = '-' :: (natChars (m + 1) ++ rest) := by
        simp [dumps, intChars]
      rw [harr, parseVal_eq f _ '-' _ (skipWs_cons_not_ws _ (by decide))]
      have htw := @takeWhile_digits_append (natChars (m + 1)) rest
        (natChars_all_digits (m + 1)) hr
      have hne : ¬(natChars (m + 1)).isEmpty = true := by
        simp [List.isEmpty_iff, natChars_ne_nil]
      have hval : -((digitsVal (natChars (m + 1)) : Int)) = Int.negSucc m := by
        rw [digitsVal_natChars, Int.negSucc_eq]
        push_cast
        ring
      simp [parseNegNat, htw.1, htw.2, hne, hval]
  | .arr xs, fuel, rest, h, hr => by
    cases fuel with
    | zero => exact absurd h (by omega)
    | succ f =>
      have harr : dumps (.arr xs) ++ rest = '[' :: (dumpsElems xs ++ ']' :: rest) := by
        simp [dumps]
      rw [harr, parseVal_eq f _ '[' _ (skipWs_cons_not_ws _ (by decide))]
      rw [if_neg (by decide : ¬('[' : Char) = 'n'), if_neg (by decide : ¬('[' : Char) = 't'),
        if_neg (by decide : ¬('[' : Char) = 'f'), if_neg (by decide : ¬('[' : Char) = '"'),
        if_pos rfl]
      have hskip : skipWs (dumpsElems xs ++ ']' :: rest) = dumpsElems xs ++ ']' :: rest := by
        cases xs with
        | nil => exact skipWs_cons_not_ws _ (by decide)
        | cons x xs2 =>
          show skipWs ((dumps x ++ dumpsTail xs2) ++ ']' :: rest) = _
          rw [List.append_assoc, skipWs_dumps_append]
          simp [dumpsElems]
      have hw : jweightL xs < f := by
        simp only [jweight] at h
        omega
      rw [parseElems_dumps xs f (dumpsElems xs ++ ']' :: rest) rest hw hr hskip]
      rfl
  | .obj kvs, fuel, rest, h, hr => by
    cases fuel with
    | zero => exact absurd h (by omega)
    | succ f =>
      have harr : dumps (.obj kvs) ++ rest = '\x7b' :: (dumpsMembers kvs ++ '\x7d' :: rest) := by
        simp [dumps]
      rw [harr, parseVal_eq f _ '\x7b' _ (skipWs_cons_not_ws _ (by decide))]
      rw [if_neg (by decide : ¬('\x7b' : Char) = 'n'), if_neg (by decide : ¬('\x7b' : Char) = 't'),
        if_neg (by decide : ¬('\x7b' : Char) = 'f'), if_neg (by decide : ¬('\x7b' : Char) = '"'),
        if_neg (by decide : ¬('\x7b' : Char) = '['), if_pos rfl]
      have hskip : skipWs (dumpsMembers kvs ++ '\x7d' :: rest)
          = dumpsMembers kvs ++ '\x7d' :: rest := by
        cases kvs with
        | nil => exact skipWs_cons_not_ws _ (by decide)
        | cons p ps =>
          obtain ⟨k, v⟩ := p
          show skipWs ('"' :: _) = _
          exact skipWs_cons_not_ws _ (by decide)
      have hw : jweightO kvs < f := by
        simp only [jweight] at h
        omega
      rw [parseMembers_dumps kvs f (dumpsMembers kvs ++ '\x7d' :: rest) rest hw hr hskip]
      rfl

/-- `parseElems` consumes exactly a serialized element list and its closing
bracket. -/
theorem parseElems_dumps : ∀ (xs : List Json) (fuel : Nat) (s rest : List Char),
    jweightL xs < fuel → restOk rest →
    skipWs s = dumpsElems xs ++ ']' :: rest →
    parseElems fuel s = some (xs, rest)
  | xs, 0, s, rest, h, hr, hs => absurd h (by omega)
  | [], fuel + 1, s, rest, h, hr, hs => by
    simp only [dumpsElems, List.nil_append] at hs
    rw [parseElems_eq fuel s ']' rest hs]
    simp
  | x :: xs2, fuel + 1, s, rest, h, hr, hs => by
    obtain ⟨c, r, hcr, hv⟩ := dumps_head x
    have hs2 : skipWs s = c :: (r ++ (dumpsTail xs2 ++ ']' :: rest)) := by
      rw [hs]
      show (dumps x ++ dumpsTail xs2) ++ ']' :: rest = _
      rw [hcr]
      simp
    obtain ⟨hne1, hne2, hne3⟩ := valHead_ne_close hv
    rw [parseElems_eq fuel s c _ hs2, if_neg hne1]
    have hback : c :: (r ++ (dumpsTail xs2 ++ ']' :: rest))
        = dumps x ++ (dumpsTail xs2 ++ ']' :: rest) := by
      rw [hcr, List.cons_append]
    have hwx : jweight x < fuel := by
      simp only [jweightL] at h
      omega
    rw [hback, parseVal_dumps x fuel (dumpsTail xs2 ++ ']' :: rest) hwx
      (restOk_dumpsTail xs2 rest)]
    cases xs2 with
    | nil =>
      simp [dumpsTail, skipWs_rbrack]
    | cons y ys =>
      have hskip2 : skipWs (' ' :: (dumps y ++ (dumpsTail ys ++ ']' :: rest)))
          = dumpsElems (y :: ys) ++ ']' :: rest := by
        rw [skipWs_space, skipWs_dumps_append]
        simp [dumpsElems]
      have hwy : jweightL (y :: ys) < fuel := by
        simp only [jweightL] at h ⊢
        omega
      have hrec := parseElems_dumps (y :: ys) fuel
        (' ' :: (dumps y ++ (dumpsTail ys ++ ']' :: rest))) rest hwy hr hskip2
      simp [dumpsTail, List.append_assoc, skipWs_comma, hrec]

/-- `parseMembers` consumes exactly a serialized member list and its closing
brace. -/
theorem parseMembers_dumps : ∀ (kvs : List (List Char × Json)) (fuel : Nat) (s rest : List Char),
    jweightO kvs < fuel → restOk rest →
    skipWs s = dumpsMembers kvs ++ '\x7d' :: rest →
    parseMembers fuel s = some (kvs, rest)
  | kvs, 0, s, rest, h, hr, hs => absurd h (by omega)
  | [], fuel + 1, s, rest, h, hr, hs => by
    simp only [dumpsMembers, List.nil_append] at hs
    rw [parseMembers_eq fuel s '\x7d' rest hs]
    simp
  | (k, v) :: kvs2, fuel + 1, s, rest, h, hr, hs => by
    have hs2 : skipWs s
        = '"' :: (escape k ++ '"' :: (':' :: ' ' :: (dumps v ++ (dumpsMTail kvs2 ++ '\x7d' :: rest)))) := by
      rw [hs]
      show ('"' :: (escape k ++ '"' :: ':' :: ' ' :: (dumps v ++ dumpsMTail kvs2))) ++ '\x7d' :: rest = _
      simp
    rw [parseMembers_eq fuel s '"' _ hs2]
    rw [if_neg (by decide : ¬('"' : Char) = '\x7d'), if_pos rfl]
    have hps := parseStr_escape k (':' :: ' ' :: (dumps v ++ (dumpsMTail kvs2 ++ '\x7d' :: rest)))
    have hpv : parseVal fuel (' ' :: (dumps v ++ (dumpsMTail kvs2 ++ '\x7d' :: rest)))
        = some (v, dumpsMTail kvs2 ++ '\x7d' :: rest) := by
      rw [parseVal_drop_ws fuel ' ' _ (by decide)]
      have hwv : jweight v < fuel := by
        simp only [jweightO] at h
        omega
      exact parseVal_dumps v fuel (dumpsMTail kvs2 ++ '\x7d' :: rest) hwv
        (restOk_dumpsMTail kvs2 rest)
    cases kvs2 with
    | nil =>
      simp only [dumpsMTail, List.nil_append] at hps hpv ⊢
      simp [hps, skipWs_colon, hpv, skipWs_rbrace]
    | cons p ps =>
      obtain ⟨k2, v2⟩ := p
      have hskip2 : skipWs (' ' :: ('"' :: (escape k2 ++ '"' :: ':' :: ' ' :: (dumps v2 ++ (dumpsMTail ps ++ '\x7d' :: rest)))))
          = dumpsMembers ((k2, v2) :: ps) ++ '\x7d' :: rest := by
        rw [skipWs_space, skipWs_cons_not_ws _ (by decide)]
        simp [dumpsMembers]
      have hwp : jweightO ((k2, v2) :: ps) < fuel := by
        simp only [jweightO] at h ⊢
        omega
      have hrec := parseMembers_dumps ((k2, v2) :: ps) fuel
        (' ' :: ('"' :: (escape k2 ++ '"' :: ':' :: ' ' :: (dumps v2 ++ (dumpsMTail ps ++ '\x7d' :: rest)))))
        rest hwp hr hskip2
      simp only [dumpsMTail, List.cons_append, List.append_assoc] at hps hpv hrec ⊢
      simp [hps, skipWs_colon, hpv, skipWs_comma, hrec]

end

mutual

/-- A serialized document is at least as long as its weight: the default
fuel of `loads` is always sufficient. -/
theorem jweight_le_dumps : ∀ (d : Json), jweight d ≤ (dumps d).length
  | .null => by simp [jweight, dumps]
  | .bool true => by simp [jweight, dumps]
  | .bool false => by simp [jweight, dumps]
  | .int n => by
    simp only [jweight, dumps]
    cases n with
    | ofNat m =>
      show 1 ≤ (natChars m).length
      cases hnc : natChars m with
      | nil => exact absurd hnc (natChars_ne_nil m)
      | cons c r => simp
    | negSucc m => simp [intChars]
  | .str s => by simp [jweight, dumps]
  | .arr xs => by
    have hb : jweightL xs ≤ (dumpsElems xs).length + 1 := by
      cases xs with
      | nil => simp [jweightL]
      | cons x t =>
        have ha := jweight_le_dumps x
        have hc := jweightL_le_dumpsTail t
        simp only [jweightL, dumpsElems, List.length_append]
        omega
    simp only [jweight, dumps, List.length_cons, List.length_append]
    simp at hb ⊢
    omega
  | .obj kvs => by
    have hb : jweightO kvs ≤ (dumpsMembers kvs).length + 1 := by
      cases kvs with
      | nil => simp [jweightO]
      | cons p t =>
        obtain ⟨k, v⟩ := p
        have ha := jweight_le_dumps v
        have hc := jweightO_le_dumpsMTail t
        simp only [jweightO, dumpsMembers, List.length_cons, List.length_append]
        omega
    simp only [jweight, dumps, List.length_cons, List.length_append]
    simp at hb ⊢
    omega

/-- Weight bound for the comma-separated element tail. -/
theorem jweightL_le_dumpsTail : ∀ (xs : List Json), jweightL xs ≤ (dumpsTail xs).length
  | [] => by simp [jweightL, dumpsTail]
  | x :: t => by
    have ha := jweight_le_dumps x
    have hc := jweightL_le_dumpsTail t
    simp only [jweightL, dumpsTail, List.length_cons, List.length_append]
    omega

/-- Weight bound for the comma-separated member tail. -/
theorem jweightO_le_dumpsMTail : ∀ (kvs : List (List Char × Json)),
    jweightO kvs ≤ (dumpsMTail kvs).length
  | [] => by simp [jweightO, dumpsMTail]
  | (k, v) :: t => by
    have ha := jweight_le_dumps v
    have hc := jweightO_le_dumpsMTail t
    simp only [jweightO, dumpsMTail, List.length_cons, List.length_append]
    omega

end

/-- `json.loads` inverts `json.dumps` on every document of the model. -/
theorem loads_dumps (d : Json) : loads (dumps d) = some d := by
  have h1 : parseVal ((dumps d).length + 1) (dumps d ++ []) = some (d, []) :=
    parseVal_dumps d _ [] (by have := jweight_le_dumps d; omega) trivial
  rw [List.append_nil] at h1
  simp [loads, h1, skipWs]

/-! ### Decoding a composed artifact -/

/-- Stripping the wrapper tokens with Python's global `replace` recovers the
payload, provided the opening token does not reoccur after the prefix and the
closing token occurs only as the final suffix. -/
theorem strip_wrap (D pre suf : List Char) (hpre : pre ≠ []) (hsuf : suf ≠ [])
    (h1 : hasSub pre (D ++ suf) = false)
    (h2 : occursBefore suf (D ++ suf) D.length = false) :
    strReplace (strReplace (pre ++ (D ++ suf)) pre []) suf [] = D := by
  rw [strReplace_prefix_eat (D ++ suf) [] hpre, List.nil_append,
    strReplace_of_hasSub_false _ _ h1, strReplace_append_no_occ D suf [] h2]
  have hsufz : strReplace suf suf [] = [] := by
    have hh := strReplace_prefix_eat ([] : List Char) ([] : List Char) hsuf
    rw [List.append_nil] at hh
    simpa using hh
  rw [hsufz, List.append_nil]

/-- Decoding an artifact composed with the `const e` + quote template, under
the token-collision side conditions on the doubled payload. -/
theorem json_source_compose_e (doc : Json)
    (h1 : hasSub pe1 (strReplace (dumps doc) bsP bsD ++ se1) = false)
    (h2 : occursBefore se1 (strReplace (dumps doc) bsP bsD ++ se1)
      (strReplace (dumps doc) bsP bsD).length = false)
    (h3 : hasSub pe2 (dumps doc) = false)
    (h4 : hasSub pt1 (dumps doc) = false)
    (h5 : hasSub pt2 (dumps doc) = false) :
    json_source (e_compose_source (dumps doc)) = some doc := by
  have hw : e_compose_source (dumps doc)
      = pe1 ++ (strReplace (dumps doc) bsP bsD ++ se1) := by
    show strReplace (pe1 ++ dumps doc ++ se1) bsP bsD = _
    rw [doubleBS_append, doubleBS_append, doubleBS_id pe1 (by decide),
      doubleBS_id se1 (by decide), List.append_assoc]
  have hc1 : hasSub pe1 (pe1 ++ (strReplace (dumps doc) bsP bsD ++ se1)) = true :=
    hasSub_of_isPrefixOf (List.isPrefixOf_iff_prefix.mpr (List.prefix_append _ _))
  have hr1 : strReplace (strReplace (strReplace
        (pe1 ++ (strReplace (dumps doc) bsP bsD ++ se1)) pe1 []) se1 []) bsD bsP
      = dumps doc := by
    rw [strip_wrap (strReplace (dumps doc) bsP bsD) pe1 se1 (by decide) (by decide) h1 h2]
    exact halve_double _
  rw [hw]
  simp only [json_source]
  simp [hc1, hr1, h3, h4, h5, loads_dumps]

/-- Decoding an artifact composed with the `const t` + quote template. -/
theorem json_source_compose_t (doc : Json)
    (g1 : hasSub pe1 (pt1 ++ (strReplace (dumps doc) bsP bsD ++ st1)) = false)
    (g2 : hasSub pe2 (pt1 ++ (strReplace (dumps doc) bsP bsD ++ st1)) = false)
    (g3 : hasSub pt1 (strReplace (dumps doc) bsP bsD ++ st1) = false)
    (g4 : occursBefore st1 (strReplace (dumps doc) bsP bsD ++ st1)
      (strReplace (dumps doc) bsP bsD).length = false)
    (g5 : hasSub pt2 (dumps doc) = false) :
    json_source (t_compose_source (dumps doc)) = some doc := by
  have hw : t_compose_source (dumps doc)
      = pt1 ++ (strReplace (dumps doc) bsP bsD ++ st1) := by
    show strReplace (pt1 ++ dumps doc ++ st1) bsP bsD = _
    rw [doubleBS_append, doubleBS_append, doubleBS_id pt1 (by decide),
      doubleBS_id st1 (by decide), List.append_assoc]
  have hc3 : hasSub pt1 (pt1 ++ (strReplace (dumps doc) bsP bsD ++ st1)) = true :=
    hasSub_of_isPrefixOf (List.isPrefixOf_iff_prefix.mpr (List.prefix_append _ _))
  have hr3 : strReplace (strReplace (strReplace
        (pt1 ++ (strReplace (dumps doc) bsP bsD ++ st1)) pt1 []) st1 []) bsD bsP
      = dumps doc := by
    rw [strip_wrap (strReplace (dumps doc) bsP bsD) pt1 st1 (by decide) (by decide) g3 g4]
    exact halve_double _
  rw [hw]
  simp only [json_source]
  simp [g1, g2, hc3, hr3, g5, loads_dumps]

/-- Decoding a delimiter-B (backtick) `const e` artifact. -/
theorem json_source_compose_eb (doc : Json)
    (b1 : hasSub pe1 (pe2 ++ (strReplace (dumps doc) bsP bsD ++ se2)) = false)
    (b2 : hasSub pe2 (strReplace (dumps doc) bsP bsD ++ se2) = false)
    (b3 : occursBefore se2 (strReplace (dumps doc) bsP bsD ++ se2)
      (strReplace (dumps doc) bsP bsD).length = false)
    (b4 : hasSub pt1 (dumps doc) = false)
    (b5 : hasSub pt2 (dumps doc) = false) :
    json_source (e_compose_source_backtick (dumps doc)) = some doc := by
  have hw : e_compose_source_backtick (dumps doc)
      = pe2 ++ (strReplace (dumps doc) bsP bsD ++ se2) := by
    show strReplace (pe2 ++ dumps doc ++ se2) bsP bsD = _
    rw [doubleBS_append, doubleBS_append, doubleBS_id pe2 (by decide),
      doubleBS_id se2 (by decide), List.append_assoc]
  have hc2 : hasSub pe2 (pe2 ++ (strReplace (dumps doc) bsP bsD ++ se2)) = true :=
    hasSub_of_isPrefixOf (List.isPrefixOf_iff_prefix.mpr (List.prefix_append _ _))
  have hr2 : strReplace (strReplace (strReplace
        (pe2 ++ (strReplace (dumps doc) bsP bsD ++ se2)) pe2 []) se2 []) bsD bsP
      = dumps doc := by
    rw [strip_wrap (strReplace (dumps doc) bsP bsD) pe2 se2 (by decide) (by decide) b2 b3]
    exact halve_double _
  rw [hw]
  simp only [json_source]
  simp [b1, hc2, hr2, b4, b5, loads_dumps]

/-- Decoding a delimiter-B (backtick) `const t` artifact. -/
theorem json_source_compose_tb (doc : Json)
    (c1 : hasSub pe1 (pt2 ++ (strReplace (dumps doc) bsP bsD ++ st2)) = false)
    (c2 : hasSub pe2 (pt2 ++ (strReplace (dumps doc) bsP bsD ++ st2)) = false)
    (c3 : hasSub pt1 (pt2 ++ (strReplace (dumps doc) bsP bsD ++ st2)) = false)
    (c4 : hasSub pt2 (strReplace (dumps doc) bsP bsD ++ st2) = false)
    (c5 : occursBefore st2 (strReplace (dumps doc) bsP bsD ++ st2)
      (strReplace (dumps doc) bsP bsD).length = false) :
    json_source (t_compose_source_backtick (dumps doc)) = some doc := by
  have hw : t_compose_source_backtick (dumps doc)
      = pt2 ++ (strReplace (dumps doc) bsP bsD ++ st2) := by
    show strReplace (pt2 ++ dumps doc ++ st2) bsP bsD = _
    rw [doubleBS_append, doubleBS_append, doubleBS_id pt2 (by decide),
      doubleBS_id st2 (by decide), List.append_assoc]
  have hc4 : hasSub pt2 (pt2 ++ (strReplace (dumps doc) bsP bsD ++ st2)) = true :=
    hasSub_of_isPrefixOf (List.isPrefixOf_iff_prefix.mpr (List.prefix_append _ _))
  have hr4 : strReplace (strReplace (strReplace
        (pt2 ++ (strReplace (dumps doc) bsP bsD ++ st2)) pt2 []) st2 []) bsD bsP
      = dumps doc := by
    rw [strip_wrap (strReplace (dumps doc) bsP bsD) pt2 st2 (by decide) (by decide) c4 c5]
    exact halve_double _
  rw [hw]
  simp only [json_source]
  simp [c1, c2, c3, hc4, hr4, loads_dumps]

/-! ### Token-collision side conditions and general wrap shapes -/

theorem json_source_compose_e_clean (doc : Json) (hc : cleanE doc = true) :
    json_source (e_compose_source (dumps doc)) = some doc := by
  simp only [cleanE, Bool.and_eq_true, Bool.not_eq_true'] at hc
  exact json_source_compose_e doc hc.1.1.1.1 hc.1.1.1.2 hc.1.1.2 hc.1.2 hc.2

theorem json_source_compose_t_clean (doc : Json) (hc : cleanT doc = true) :
    json_source (t_compose_source (dumps doc)) = some doc := by
  simp only [cleanT, Bool.and_eq_true, Bool.not_eq_true'] at hc
  exact json_source_compose_t doc hc.1.1.1.1 hc.1.1.1.2 hc.1.1.2 hc.1.2 hc.2

theorem json_source_compose_eb_clean (doc : Json) (hc : cleanEB doc = true) :
    json_source (e_compose_source_backtick (dumps doc)) = some doc := by
  simp only [cleanEB, Bool.and_eq_true, Bool.not_eq_true'] at hc
  exact json_source_compose_eb doc hc.1.1.1.1 hc.1.1.1.2 hc.1.1.2 hc.1.2 hc.2

theorem json_source_compose_tb_clean (doc : Json) (hc : cleanTB doc = true) :
    json_source (t_compose_source_backtick (dumps doc)) = some doc := by
  simp only [cleanTB, Bool.and_eq_true, Bool.not_eq_true'] at hc
  exact json_source_compose_tb doc hc.1.1.1.1 hc.1.1.1.2 hc.1.1.2 hc.1.2 hc.2

/-- The delimiter-A `const e` composer output never coincides with a
delimiter-B artifact: the 20th characters of the templates differ. -/
theorem e_compose_ne_backtick (s t : List Char) :
    e_compose_source s ≠ e_compose_source_backtick t := by
  have hw1 : e_compose_source s = pe1 ++ (strReplace s bsP bsD ++ se1) := by
    show strReplace (pe1 ++ s ++ se1) bsP bsD = _
    rw [doubleBS_append, doubleBS_append, doubleBS_id pe1 (by decide),
      doubleBS_id se1 (by decide), List.append_assoc]
  have hw2 : e_compose_source_backtick t = pe2 ++ (strReplace t bsP bsD ++ se2) := by
    show strReplace (pe2 ++ t ++ se2) bsP bsD = _
    rw [doubleBS_append, doubleBS_append, doubleBS_id pe2 (by decide),
      doubleBS_id se2 (by decide), List.append_assoc]
  rw [hw1, hw2]
  intro h
  have h2 := List.append_inj h (by decide)
  exact absurd h2.1 (by decide)

/-- The delimiter-A `const t` composer output never coincides with a
delimiter-B artifact: the 20th characters of the templates differ. -/
theorem t_compose_ne_backtick (s t : List Char) :
    t_compose_source s ≠ t_compose_source_backtick t := by
  have hw1 : t_compose_source s = pt1 ++ (strReplace s bsP bsD ++ st1) := by
    show strReplace (pt1 ++ s ++ st1) bsP bsD = _
    rw [doubleBS_append, doubleBS_append, doubleBS_id pt1 (by decide),
      doubleBS_id st1 (by decide), List.append_assoc]
  have hw2 : t_compose_source_backtick t = pt2 ++ (strReplace t bsP bsD ++ st2) := by
    show strReplace (pt2 ++ t ++ st2) bsP bsD = _
    rw [doubleBS_append, doubleBS_append, doubleBS_id pt2 (by decide),
      doubleBS_id st2 (by decide), List.append_assoc]
  rw [hw1, hw2]
  intro h
  have h2 := List.append_inj h (by decide)
  exact absurd h2.1 (by decide)

/-! ### Claims C1 and C2: codec round trips -/

/-- C1 (amended): for every encodable document whose serialized payload has
no wrapper-token collision, a text composed with a delimiter-A template
(either binding name) decodes with `json_source` and re-encodes with the same
binding's composer to the byte-identical original text; a delimiter-B
(backtick) artifact of either binding name decodes and re-encodes to that
binding's delimiter-A form, which is never byte-identical to the original. -/
theorem claim_C1_roundtrip (doc : Json) (henc : encodable doc = true)
    (hce : cleanE doc = true) (hct : cleanT doc = true)
    (hcb : cleanEB doc = true) (hctb : cleanTB doc = true) :
    (json_source (e_compose_source (dumps doc))).map (fun d => e_compose_source (dumps d))
        = some (e_compose_source (dumps doc))
    ∧ (json_source (t_compose_source (dumps doc))).map (fun d => t_compose_source (dumps d))
        = some (t_compose_source (dumps doc))
    ∧ (json_source (e_compose_source_backtick (dumps doc))).map
          (fun d => e_compose_source (dumps d))
        = some (e_compose_source (dumps doc))
    ∧ (json_source (t_compose_source_backtick (dumps doc))).map
          (fun d => t_compose_source (dumps d))
        = some (t_compose_source (dumps doc))
    ∧ e_compose_source (dumps doc) ≠ e_compose_source_backtick (dumps doc)
    ∧ t_compose_source (dumps doc) ≠ t_compose_source_backtick (dumps doc) := by
  refine ⟨?_, ?_, ?_, ?_, e_compose_ne_backtick _ _, t_compose_ne_backtick _ _⟩
  · rw [json_source_compose_e_clean doc hce]
    rfl
  · rw [json_source_compose_t_clean doc hct]
    rfl
  · rw [json_source_compose_eb_clean doc hcb]
    rfl
  · rw [json_source_compose_tb_clean doc hctb]
    rfl

/-- C1 witness: the round trips at a concrete three-contributor document. -/
theorem claim_C1_roundtrip_witness :
    (json_source (e_compose_source (dumps doc1))).map (fun d => e_compose_source (dumps d))
        = some (e_compose_source (dumps doc1))
    ∧ (json_source (t_compose_source (dumps doc1))).map (fun d => t_compose_source (dumps d))
        = some (t_compose_source (dumps doc1))
    ∧ (json_source (e_compose_source_backtick (dumps doc1))).map
          (fun d => e_compose_source (dumps d))
        = some (e_compose_source (dumps doc1))
    ∧ (json_source (t_compose_source_backtick (dumps doc1))).map
          (fun d => t_compose_source (dumps d))
        = some (t_compose_source (dumps doc1))
    ∧ e_compose_source (dumps doc1) ≠ e_compose_source_backtick (dumps doc1)
    ∧ t_compose_source (dumps doc1) ≠ t_compose_source_backtick (dumps doc1) :=
  claim_C1_roundtrip doc1 (by decide) (by decide) (by decide) (by decide) (by decide)

/-- C1 counterexample: a document whose string value is exactly the closing
token defeats the round trip as originally stated, because `json_source`
strips every occurrence of the token, not just the final suffix. -/
theorem claim_C1_counterexample :
    (json_source (e_compose_source (dumps docBad))).map (fun d => e_compose_source (dumps d))
      ≠ some (e_compose_source (dumps docBad)) := by
  decide

/-- C2 (amended): `decode (encode doc) = doc` for every encodable document
with no wrapper-token collision, for all four wrapper templates. -/
theorem claim_C2_decode_encode (doc : Json) (henc : encodable doc = true)
    (hce : cleanE doc = true) (hct : cleanT doc = true)
    (hcb : cleanEB doc = true) (hctb : cleanTB doc = true) :
    json_source (e_compose_source (dumps doc)) = some doc
    ∧ json_source (t_compose_source (dumps doc)) = some doc
    ∧ json_source (e_compose_source_backtick (dumps doc)) = some doc
    ∧ json_source (t_compose_source_backtick (dumps doc)) = some doc :=
  ⟨json_source_compose_e_clean doc hce, json_source_compose_t_clean doc hct,
   json_source_compose_eb_clean doc hcb, json_source_compose_tb_clean doc hctb⟩

/-- C2 witness: decode ∘ encode at a concrete three-contributor document,
all four templates. -/
theorem claim_C2_decode_encode_witness :
    json_source (e_compose_source (dumps doc1)) = some doc1
    ∧ json_source (t_compose_source (dumps doc1)) = some doc1
    ∧ json_source (e_compose_source_backtick (dumps doc1)) = some doc1
    ∧ json_source (t_compose_source_backtick (dumps doc1)) = some doc1 :=
  claim_C2_decode_encode doc1 (by decide) (by decide) (by decide) (by decide) (by decide)

/-- C2 counterexample: the round trip `decode (encode doc) = doc` fails as
universally stated, on the document whose string value is the closing
token. -/
theorem claim_C2_counterexample :
    json_source (e_compose_source (dumps docBad)) ≠ some docBad := by
  decide

/-! ### Laws of the Python dict model -/

theorem buildDict_eq_foldIns (L : List (List Char × Json)) :
    buildDict L = foldIns [] L := rfl

theorem dictInsert_keys (m : List (List Char × Json)) (k : List Char) (v : Json) :
    (dictInsert m k v).map Prod.fst =
      if k ∈ m.map Prod.fst then m.map Prod.fst else m.map Prod.fst ++ [k] := by
  induction m with
  | nil =>
    simp only [dictInsert, List.map_cons, List.map_nil, List.nil_append]
    rw [if_neg (List.not_mem_nil k)]
  | cons p t ih =>
    obtain ⟨k2, v2⟩ := p
    by_cases hk : k2 = k
    · subst hk
      simp [dictInsert]
    · have hk' : ¬k = k2 := fun h => hk h.symm
      simp only [dictInsert, if_neg hk, List.map_cons]
      rw [ih]
      by_cases hmem : k ∈ t.map Prod.fst
      · simp [hmem, hk']
      · simp [hmem, hk']

theorem lookupKey_dictInsert (m : List (List Char × Json)) (k : List Char) (v : Json)
    (k' : List Char) :
    lookupKey (dictInsert m k v) k' = if k' = k then some v else lookupKey m k' := by
  induction m with
  | nil =>
    by_cases hk : k' = k
    · subst hk
      simp [dictInsert, lookupKey]
    · have hk2 : ¬k = k' := fun h => hk h.symm
      simp [dictInsert, lookupKey, hk, hk2]
  | cons p t ih =>
    obtain ⟨k2, v2⟩ := p
    by_cases hk2 : k2 = k
    · subst hk2
      by_cases hk : k' = k2
      · subst hk
        simp [dictInsert, lookupKey]
      · have hh : ¬k2 = k' := fun h => hk h.symm
        simp [dictInsert, lookupKey, hk, hh]
    · simp only [dictInsert, if_neg hk2]
      by_cases hkk : k2 = k'
      · have hne : ¬k' = k := by
          rw [← hkk]
          exact hk2
        simp [lookupKey, hkk, hne]
      · simp [lookupKey, hkk, ih]

theorem dictInsert_mem {m : List (List Char × Json)} {k : List Char} {v : Json}
    {p : List Char × Json} (h : p ∈ dictInsert m k v) : p ∈ m ∨ p = (k, v) := by
  induction m with
  | nil =>
    simp [dictInsert] at h
    exact Or.inr h
  | cons q t ih =>
    obtain ⟨k2, v2⟩ := q
    by_cases hk2 : k2 = k
    · subst hk2
      simp only [dictInsert, if_pos rfl] at h
      rcases List.mem_cons.mp h with h1 | h1
      · exact Or.inr (by rw [h1])
      · exact Or.inl (List.mem_cons_of_mem _ h1)
    · simp only [dictInsert, if_neg hk2] at h
      rcases List.mem_cons.mp h with h1 | h1
      · exact Or.inl (by rw [h1]; exact List.mem_cons_self _ _)
      · rcases ih h1 with h2 | h2
        · exact Or.inl (List.mem_cons_of_mem _ h2)
        · exact Or.inr h2

theorem dictInsert_fresh : ∀ (m : List (List Char × Json)) (k : List Char) (v : Json),
    k ∉ m.map Prod.fst → dictInsert m k v = m ++ [(k, v)] := by
  intro m
  induction m with
  | nil => intro k v h; rfl
  | cons p t ih =>
    intro k v h
    obtain ⟨k2, v2⟩ := p
    simp only [List.map_cons, List.mem_cons, not_or] at h
    have hne : ¬k2 = k := fun hh => h.1 (Eq.symm hh)
    simp only [dictInsert, if_neg hne]
    rw [ih k v h.2]
    rfl

theorem foldIns_lookup : ∀ (L : List (List Char × Json)) (m : List (List Char × Json))
    (k : List Char),
    lookupKey (foldIns m L) k =
      match lastVal L k with
      | some v => some v
      | none => lookupKey m k := by
  intro L
  induction L with
  | nil => intro m k; rfl
  | cons p L ih =>
    intro m k
    show lookupKey (foldIns (dictInsert m p.1 p.2) L) k = _
    rw [ih]
    cases hlv : lastVal L k with
    | some v => simp [lastVal, hlv]
    | none =>
      rw [lookupKey_dictInsert]
      by_cases hk : p.1 = k
      · simp [lastVal, hlv, hk]
      · have hk' : ¬k = p.1 := fun h => hk h.symm
        simp [lastVal, hlv, hk, hk']

theorem ddfAux_congr : ∀ {s1 s2 : List (List Char)} (ks : List (List Char)),
    (∀ x, x ∈ s1 ↔ x ∈ s2) → ddfAux s1 ks = ddfAux s2 ks := by
  intro s1 s2 ks
  induction ks generalizing s1 s2 with
  | nil => intro h; rfl
  | cons k ks ih =>
    intro h
    by_cases hk : k ∈ s1
    · simp only [ddfAux, if_pos hk, if_pos ((h k).mp hk)]
      exact ih h
    · simp only [ddfAux, if_neg hk, if_neg (fun hh => hk ((h k).mpr hh))]
      exact congrArg (List.cons k) (ih (fun x => by simp [h x]))

theorem foldIns_keys : ∀ (L : List (List Char × Json)) (m : List (List Char × Json)),
    (foldIns m L).map Prod.fst =
      m.map Prod.fst ++ ddfAux (m.map Prod.fst) (L.map Prod.fst) := by
  intro L
  induction L with
  | nil => intro m; simp [foldIns, ddfAux]
  | cons p L ih =>
    intro m
    show (foldIns (dictInsert m p.1 p.2) L).map Prod.fst = _
    rw [ih]
    by_cases hmem : p.1 ∈ m.map Prod.fst
    · rw [dictInsert_keys, if_pos hmem]
      simp [ddfAux, hmem]
    · rw [dictInsert_keys, if_neg hmem]
      have hcongr : ∀ ks, ddfAux (m.map Prod.fst ++ [p.1]) ks = ddfAux (p.1 :: m.map Prod.fst) ks := by
        intro ks
        apply ddfAux_congr
        intro x
        simp [or_comm]
      simp only [List.map_cons, ddfAux, if_neg hmem]
      rw [hcongr]
      simp

theorem foldIns_keys_nodup : ∀ (L : List (List Char × Json)) (m : List (List Char × Json)),
    (m.map Prod.fst).Nodup → ((foldIns m L).map Prod.fst).Nodup := by
  intro L
  induction L with
  | nil => intro m h; exact h
  | cons p L ih =>
    intro m h
    show ((foldIns (dictInsert m p.1 p.2) L).map Prod.fst).Nodup
    apply ih
    rw [dictInsert_keys]
    by_cases hmem : p.1 ∈ m.map Prod.fst
    · rw [if_pos hmem]; exact h
    · rw [if_neg hmem]
      simp [List.nodup_append, h, hmem]

theorem foldIns_mem : ∀ (L : List (List Char × Json)) (m : List (List Char × Json))
    {p : List Char × Json}, p ∈ foldIns m L → p ∈ m ∨ p ∈ L := by
  intro L
  induction L with
  | nil => intro m p h; exact Or.inl h
  | cons q L ih =>
    intro m p h
    rcases ih (dictInsert m q.1 q.2) h with h1 | h1
    · rcases dictInsert_mem h1 with h2 | h2
      · exact Or.inl h2
      · exact Or.inr (by rw [h2]; exact List.mem_cons_self _ _)
    · exact Or.inr (List.mem_cons_of_mem _ h1)

theorem foldIns_of_nodup : ∀ (L m : List (List Char × Json)),
    (((m ++ L).map Prod.fst)).Nodup → foldIns m L = m ++ L := by
  intro L
  induction L with
  | nil => intro m h; simp [foldIns]
  | cons p L ih =>
    intro m h
    have hfresh : p.1 ∉ m.map Prod.fst := by
      intro hmem
      rw [List.map_append] at h
      exact List.disjoint_of_nodup_append h hmem (by simp)
    show foldIns (dictInsert m p.1 p.2) L = m ++ p :: L
    rw [dictInsert_fresh m p.1 p.2 hfresh, ih (m ++ [(p.1, p.2)]) (by simpa [List.append_assoc] using h)]
    simp

theorem lookupKey_mem_nodup : ∀ (E : List (List Char × Json)),
    (E.map Prod.fst).Nodup → ∀ {p : List Char × Json}, p ∈ E → lookupKey E p.1 = some p.2 := by
  intro E
  induction E with
  | nil => intro h p hp; simp at hp
  | cons q t ih =>
    intro h p hp
    simp only [List.map_cons, List.nodup_cons] at h
    rcases List.mem_cons.mp hp with h1 | h1
    · subst h1
      simp [lookupKey]
    · have hne : ¬q.1 = p.1 := by
        intro he
        exact h.1 (he ▸ List.mem_map_of_mem Prod.fst h1)
      show (if q.1 = p.1 then some q.2 else lookupKey t p.1) = some p.2
      rw [if_neg hne]
      exact ih h.2 h1

theorem mem_ddfAux : ∀ (ks : List (List Char)) (seen : List (List Char)) (x : List Char),
    x ∈ ddfAux seen ks ↔ x ∈ ks ∧ x ∉ seen := by
  intro ks
  induction ks with
  | nil => intro seen x; simp [ddfAux]
  | cons k ks ih =>
    intro seen x
    by_cases hk : k ∈ seen
    · rw [show ddfAux seen (k :: ks) = ddfAux seen ks from by simp [ddfAux, hk]]
      rw [ih]
      constructor
      · rintro ⟨h1, h2⟩
        exact ⟨List.mem_cons_of_mem k h1, h2⟩
      · rintro ⟨h1, h2⟩
        rcases List.mem_cons.mp h1 with h3 | h3
        · exact absurd (h3 ▸ hk) h2
        · exact ⟨h3, h2⟩
    · rw [show ddfAux seen (k :: ks) = k :: ddfAux (k :: seen) ks from by simp [ddfAux, hk]]
      constructor
      · intro h1
        rcases List.mem_cons.mp h1 with h3 | h3
        · subst h3
          exact ⟨List.mem_cons_self x ks, hk⟩
        · obtain ⟨h4, h5⟩ := (ih (k :: seen) x).mp h3
          simp only [List.mem_cons, not_or] at h5
          exact ⟨List.mem_cons_of_mem k h4, h5.2⟩
      · rintro ⟨h1, h2⟩
        by_cases hxk : x = k
        · subst hxk
          exact List.mem_cons_self x _
        · rcases List.mem_cons.mp h1 with h3 | h3
          · exact absurd h3 hxk
          · exact List.mem_cons_of_mem k ((ih (k :: seen) x).mpr
              ⟨h3, by simp [hxk, h2]⟩)

theorem lastVal_append_single (A : List (List Char × Json)) (p : List Char × Json)
    (k : List Char) :
    lastVal (A ++ [p]) k = if p.1 = k then some p.2 else lastVal A k := by
  induction A with
  | nil =>
    show lastVal [p] k = _
    simp [lastVal]
  | cons q A ih =>
    show lastVal (q :: (A ++ [p])) k = _
    by_cases hp : p.1 = k
    · simp [lastVal, ih, hp]
    · simp only [lastVal, ih, if_neg hp]

/-! ### `remove_duplicated_contributors`: structure of the result -/

theorem hasStrName_spec {d : Json} (h : hasStrName d = true) :
    ∃ s, pyGet d nameKey = some (.str s) := by
  unfold hasStrName at h
  split at h
  · next s heq => exact ⟨s, heq⟩
  · exact absurd h (by simp)

theorem namePairOf_some (d : Json) (s : List Char) (h : pyGet d nameKey = some (.str s)) :
    namePairOf d = some (s, d) := by
  simp [namePairOf, h]

theorem namePairOf_inv {d : Json} {p : List Char × Json} (h : namePairOf d = some p) :
    pyGet d nameKey = some (.str p.1) ∧ p.2 = d := by
  unfold namePairOf at h
  split at h
  · next s heq =>
    obtain rfl : (s, d) = p := Option.some.inj h
    exact ⟨heq, rfl⟩
  · exact absurd h (by simp)

theorem theName_eq {d : Json} {s : List Char} (h : pyGet d nameKey = some (.str s)) :
    theName d = s := by
  simp [theName, h]

theorem namePairs_of_names : ∀ (ds : List Json),
    (∀ d ∈ ds, ∃ s, pyGet d nameKey = some (.str s)) →
    namePairs ds = some (ds.map (fun d => (theName d, d))) := by
  intro ds
  induction ds with
  | nil => intro h; rfl
  | cons d ds ih =>
    intro h
    obtain ⟨s, hs⟩ := h d (List.mem_cons_self d ds)
    have h1 : namePairOf d = some (theName d, d) := by
      rw [theName_eq hs]
      exact namePairOf_some d s hs
    simp [namePairs, h1, ih (fun x hx => h x (List.mem_cons_of_mem d hx))]

theorem namePairs_inv : ∀ (ds : List Json) (L : List (List Char × Json)),
    namePairs ds = some L → L.map Prod.snd = ds ∧ ∀ p ∈ L, namePairOf p.2 = some p := by
  intro ds
  induction ds with
  | nil =>
    intro L h
    obtain rfl : ([] : List (List Char × Json)) = L := Option.some.inj h
    exact ⟨rfl, by simp⟩
  | cons d ds ih =>
    intro L h
    unfold namePairs at h
    cases hnp : namePairOf d with
    | none => rw [hnp] at h; simp at h
    | some p =>
      cases hps : namePairs ds with
      | none => rw [hnp, hps] at h; simp at h
      | some ps =>
        rw [hnp, hps] at h
        obtain rfl : p :: ps = L := Option.some.inj h
        obtain ⟨hmap, hall⟩ := ih ps hps
        have hp2 := namePairOf_inv hnp
        refine ⟨by simp [hmap, hp2.2], ?_⟩
        intro q hq
        rcases List.mem_cons.mp hq with h1 | h1
        · subst h1
          rw [hp2.2]
          exact hnp
        · exact hall q h1

theorem dedupe_some_elim {cs l : List Json}
    (h : remove_duplicated_contributors cs = some l) :
    ∃ L, namePairs cs.reverse = some L ∧ l = (buildDict L).map Prod.snd := by
  unfold remove_duplicated_contributors at h
  cases hL : namePairs cs.reverse with
  | none => rw [hL] at h; simp at h
  | some L =>
    rw [hL] at h
    exact ⟨L, rfl, (Option.some.inj h).symm⟩

theorem buildDict_entry_prop {L : List (List Char × Json)}
    (hall : ∀ p ∈ L, namePairOf p.2 = some p) :
    ∀ p ∈ buildDict L, namePairOf p.2 = some p := by
  intro p hp
  rcases foldIns_mem L [] hp with h1 | h1
  · simp at h1
  · exact hall p h1

theorem buildDict_keys_nodup (L : List (List Char × Json)) :
    ((buildDict L).map Prod.fst).Nodup :=
  foldIns_keys_nodup L [] (by simp)

theorem entries_snd_names : ∀ (E : List (List Char × Json)),
    (∀ p ∈ E, namePairOf p.2 = some p) →
    (E.map Prod.snd).map theName = E.map Prod.fst := by
  intro E
  induction E with
  | nil => intro h; rfl
  | cons p E ih =>
    intro h
    have hp := namePairOf_inv (h p (List.mem_cons_self p E))
    simp only [List.map_cons]
    rw [theName_eq hp.1, ih (fun q hq => h q (List.mem_cons_of_mem p hq))]

/-- On a record list with pairwise-distinct string names, the dedup
comprehension returns exactly the reversed list. -/
theorem dedupe_of_distinct (l : List Json)
    (hn : ∀ d ∈ l, ∃ s, pyGet d nameKey = some (.str s))
    (hd : (l.map theName).Nodup) :
    remove_duplicated_contributors l = some l.reverse := by
  unfold remove_duplicated_contributors
  rw [namePairs_of_names l.reverse (fun d hdm => hn d (List.mem_reverse.mp hdm))]
  have hkeys : ((l.reverse.map (fun d => (theName d, d))).map Prod.fst).Nodup := by
    rw [List.map_map]
    show (l.reverse.map theName).Nodup
    rw [List.map_reverse]
    exact List.nodup_reverse.mpr hd
  show some ((buildDict (l.reverse.map (fun d => (theName d, d)))).map Prod.snd) = some l.reverse
  rw [buildDict_eq_foldIns, foldIns_of_nodup _ [] (by simpa using hkeys)]
  rw [List.nil_append, List.map_map]
  exact congrArg some (List.map_id' l.reverse)

theorem lastVal_pairs : ∀ (cs : List Json) (k : List Char),
    lastVal (cs.reverse.map (fun d => (theName d, d))) k
      = cs.find? (fun d => decide (theName d = k)) := by
  intro cs
  induction cs with
  | nil => intro k; rfl
  | cons d cs ih =>
    intro k
    rw [List.reverse_cons, List.map_append]
    show lastVal (cs.reverse.map (fun d => (theName d, d)) ++ [(theName d, d)]) k = _
    rw [lastVal_append_single]
    by_cases hk : theName d = k
    · rw [if_pos hk, List.find?_cons_of_pos _ (by simp [hk])]
    · rw [if_neg hk, List.find?_cons_of_neg _ (by simp [hk]), ih]

theorem find?_congr_mem : ∀ (l : List Json) (p q : Json → Bool),
    (∀ x ∈ l, p x = q x) → l.find? p = l.find? q := by
  intro l p q
  induction l with
  | nil => intro h; rfl
  | cons d l ih =>
    intro h
    have hd := h d (List.mem_cons_self d l)
    cases hq : q d with
    | true => rw [List.find?_cons_of_pos _ (hd.trans hq), List.find?_cons_of_pos _ hq]
    | false =>
      rw [List.find?_cons_of_neg _ (by simp [hd, hq]), List.find?_cons_of_neg _ (by simp [hq])]
      exact ih (fun x hx => h x (List.mem_cons_of_mem d hx))

/-- The full structure of a successful dedup: the result is the value list of
a dict whose entries are keyed by the record names, with keep-first key order
over the reverse scan and earliest-in-original-order values. -/
theorem dedupe_structure (cs : List Json)
    (hn : ∀ d ∈ cs, ∃ s, pyGet d nameKey = some (.str s)) :
    ∃ E : List (List Char × Json),
      remove_duplicated_contributors cs = some (E.map Prod.snd)
      ∧ (∀ p ∈ E, namePairOf p.2 = some p)
      ∧ (E.map Prod.fst).Nodup
      ∧ E.map Prod.fst = dedupFirst (cs.reverse.map theName)
      ∧ (∀ k, lookupKey E k = cs.find? (fun d => decide (theName d = k)))
      ∧ (∀ k, k ∈ E.map Prod.fst ↔ k ∈ cs.reverse.map theName) := by
  have hL := namePairs_of_names cs.reverse (fun d hdm => hn d (List.mem_reverse.mp hdm))
  have hall : ∀ p ∈ cs.reverse.map (fun d => (theName d, d)), namePairOf p.2 = some p :=
    (namePairs_inv cs.reverse _ hL).2
  refine ⟨buildDict (cs.reverse.map (fun d => (theName d, d))), ?_, ?_, ?_, ?_, ?_, ?_⟩
  · unfold remove_duplicated_contributors
    rw [hL]
    rfl
  · exact buildDict_entry_prop hall
  · exact buildDict_keys_nodup _
  · rw [buildDict_eq_foldIns, foldIns_keys]
    simp [dedupFirst, List.map_map]
    rfl
  · intro k
    rw [buildDict_eq_foldIns, foldIns_lookup, ← lastVal_pairs cs k]
    cases lastVal (cs.reverse.map (fun d => (theName d, d))) k <;> rfl
  · intro k
    rw [buildDict_eq_foldIns, foldIns_keys]
    simp only [List.map_nil, List.nil_append]
    rw [mem_ddfAux]
    simp only [List.map_map]
    constructor
    · exact fun hk => hk.1
    · exact fun hk => ⟨hk, List.not_mem_nil k⟩

/-! ### Claims C3, C4, C5, C10: the deduplication policy -/

/-- C3 counterexample: on `[{A,1},{B,2},{A,5}]` the dedup comprehension does
not return `[{B,2},{A,1}]`; a Python dict keeps an overwritten key at its
original position, so `A` (first inserted during the reverse scan) stays
first. -/
theorem claim_C3_counterexample :
    remove_duplicated_contributors exABA
      ≠ some [contribRec ['B'] 2, contribRec ['A'] 1] := by
  decide

/-- C3 (amended): on the example list the dedup returns `[{A,1},{B,2}]`; in
general the output name order is the order in which keys were first inserted
during the reverse scan — keep-first deduplication of the reversed name
sequence, i.e. the reverse of last-occurrence order (not of first-encounter
order) in the original sequence. -/
theorem claim_C3_dedupe_order (cs : List Json) (hs : cs.all hasStrName = true) :
    remove_duplicated_contributors exABA
        = some [contribRec ['A'] 1, contribRec ['B'] 2]
    ∧ ∃ l, remove_duplicated_contributors cs = some l
        ∧ l.map theName = dedupFirst (cs.reverse.map theName) := by
  refine ⟨by decide, ?_⟩
  have hn : ∀ d ∈ cs, ∃ s, pyGet d nameKey = some (.str s) :=
    fun d hd => hasStrName_spec (List.all_eq_true.mp hs d hd)
  obtain ⟨E, hdd, hent, hnod, hkeys, _, _⟩ := dedupe_structure cs hn
  exact ⟨E.map Prod.snd, hdd, by rw [entries_snd_names E hent, hkeys]⟩

/-- C3 witness: the general order law instantiated at the example list. -/
theorem claim_C3_dedupe_order_witness :
    remove_duplicated_contributors exABA
        = some [contribRec ['A'] 1, contribRec ['B'] 2]
    ∧ ∃ l, remove_duplicated_contributors exABA = some l
        ∧ l.map theName = dedupFirst (exABA.reverse.map theName) :=
  claim_C3_dedupe_order exABA (by decide)

/-- C4 counterexample: the dedup is not idempotent — on the two distinct-name
records `[{A,1},{B,2}]` a second application reverses the result of the
first. -/
theorem claim_C4_counterexample :
    (remove_duplicated_contributors [contribRec ['A'] 1, contribRec ['B'] 2]).bind
        remove_duplicated_contributors
      ≠ remove_duplicated_contributors [contribRec ['A'] 1, contribRec ['B'] 2] := by
  decide

/-- C4 (amended): applying the dedup to its own output reverses it (the
output has pairwise-distinct names, and on such lists the comprehension
returns the reversed list); consequently a third application agrees with the
first, but the dedup is not idempotent. -/
theorem claim_C4_dedupe_involution (cs l : List Json)
    (h : remove_duplicated_contributors cs = some l) :
    remove_duplicated_contributors l = some l.reverse
    ∧ remove_duplicated_contributors l.reverse = some l := by
  obtain ⟨L, hL, hl⟩ := dedupe_some_elim h
  subst hl
  have hall := (namePairs_inv cs.reverse L hL).2
  have hent := buildDict_entry_prop hall
  have hnod := buildDict_keys_nodup L
  have hn : ∀ d ∈ (buildDict L).map Prod.snd, ∃ s, pyGet d nameKey = some (.str s) := by
    intro d hd
    rcases List.mem_map.mp hd with ⟨p, hp, rfl⟩
    exact ⟨p.1, (namePairOf_inv (hent p hp)).1⟩
  have hd2 : (((buildDict L).map Prod.snd).map theName).Nodup := by
    rw [entries_snd_names _ hent]
    exact hnod
  refine ⟨dedupe_of_distinct _ hn hd2, ?_⟩
  have hn' : ∀ d ∈ ((buildDict L).map Prod.snd).reverse, ∃ s, pyGet d nameKey = some (.str s) :=
    fun d hd => hn d (List.mem_reverse.mp hd)
  have hd' : ((((buildDict L).map Prod.snd).reverse).map theName).Nodup := by
    rw [List.map_reverse]
    exact List.nodup_reverse.mpr hd2
  have hthird := dedupe_of_distinct _ hn' hd'
  rw [List.reverse_reverse] at hthird
  exact hthird

/-- C4 witness: the reversal behaviour at the concrete deduped list
`[{A,1},{B,2}]` obtained from the example input. -/
theorem claim_C4_dedupe_involution_witness :
    remove_duplicated_contributors [contribRec ['A'] 1, contribRec ['B'] 2]
        = some [contribRec ['B'] 2, contribRec ['A'] 1]
    ∧ remove_duplicated_contributors [contribRec ['B'] 2, contribRec ['A'] 1]
        = some [contribRec ['A'] 1, contribRec ['B'] 2] := by
  have h := claim_C4_dedupe_involution exABA
    [contribRec ['A'] 1, contribRec ['B'] 2] (by decide)
  simpa using h

/-- C5: after a successful dedup every distinct name appears exactly once
(the results are pairwise distinct in name and cover every input name), and
the record retained for each name is — with all its fields — the earliest
record with that name in the original input order. -/
theorem claim_C5_earliest_wins (cs : List Json) (hs : cs.all hasStrName = true) :
    ∃ l, remove_duplicated_contributors cs = some l
      ∧ l.Pairwise (fun a b => pyGet a nameKey ≠ pyGet b nameKey)
      ∧ (∀ d ∈ cs, ∃ r ∈ l, pyGet r nameKey = pyGet d nameKey)
      ∧ (∀ r ∈ l, cs.find? (fun d => decide (pyGet d nameKey = pyGet r nameKey)) = some r) := by
  have hn : ∀ d ∈ cs, ∃ s, pyGet d nameKey = some (.str s) :=
    fun d hd => hasStrName_spec (List.all_eq_true.mp hs d hd)
  obtain ⟨E, hdd, hent, hnod, hkeys, hlook, hmem⟩ := dedupe_structure cs hn
  have hlname : ∀ d ∈ E.map Prod.snd, ∃ p, p ∈ E ∧ p.2 = d ∧ pyGet d nameKey = some (.str p.1) := by
    intro d hd
    rcases List.mem_map.mp hd with ⟨p, hp, rfl⟩
    exact ⟨p, hp, rfl, (namePairOf_inv (hent p hp)).1⟩
  refine ⟨E.map Prod.snd, hdd, ?_, ?_, ?_⟩
  · have hnd : ((E.map Prod.snd).map theName).Nodup := by
      rw [entries_snd_names E hent]
      exact hnod
    have hpw : (E.map Prod.snd).Pairwise (fun a b => theName a ≠ theName b) :=
      List.pairwise_map.mp hnd
    refine hpw.imp_of_mem ?_
    intro a b ha hb hne heq
    obtain ⟨pa, hpa, hpa2, hga⟩ := hlname a ha
    obtain ⟨pb, hpb, hpb2, hgb⟩ := hlname b hb
    apply hne
    rw [theName_eq hga, theName_eq hgb]
    rw [hga, hgb] at heq
    exact Json.str.inj (Option.some.inj heq)
  · intro d hd
    obtain ⟨s, hgs⟩ := hn d hd
    have hname_mem : theName d ∈ cs.reverse.map theName :=
      List.mem_map_of_mem theName (List.mem_reverse.mpr hd)
    obtain ⟨p, hp, hp1⟩ := List.mem_map.mp ((hmem (theName d)).mpr hname_mem)
    refine ⟨p.2, List.mem_map_of_mem Prod.snd hp, ?_⟩
    rw [(namePairOf_inv (hent p hp)).1, hp1, hgs, theName_eq hgs]
  · intro r hr
    obtain ⟨p, hp, hp2, hgr⟩ := hlname r hr
    have hfind : cs.find? (fun d => decide (theName d = p.1)) = some r := by
      rw [← hlook p.1, ← hp2]
      exact lookupKey_mem_nodup E hnod hp
    rw [← hfind]
    apply find?_congr_mem
    intro x hx
    obtain ⟨sx, hgx⟩ := hn x hx
    rw [hgx, hgr, theName_eq hgx]
    by_cases hxe : sx = p.1
    · subst hxe
      simp
    · simp [hxe]

/-- C5 witness: the earliest-wins structure at the example list. -/
theorem claim_C5_earliest_wins_witness :
    ∃ l, remove_duplicated_contributors exABA = some l
      ∧ l.Pairwise (fun a b => pyGet a nameKey ≠ pyGet b nameKey)
      ∧ (∀ d ∈ exABA, ∃ r ∈ l, pyGet r nameKey = pyGet d nameKey)
      ∧ (∀ r ∈ l, exABA.find? (fun d => decide (pyGet d nameKey = pyGet r nameKey)) = some r) :=
  claim_C5_earliest_wins exABA (by decide)

/-- C10: on a record list with pairwise-distinct string name values (and at
least two records) the dedup comprehension returns exactly the reversed
input, because the dict is built over the reversed list and every insertion
hits a fresh key. -/
theorem claim_C10_distinct_reverse (cs : List Json) (hs : cs.all hasStrName = true)
    (hd : cs.Pairwise (fun a b => pyGet a nameKey ≠ pyGet b nameKey))
    (hlen : 2 ≤ cs.length) :
    remove_duplicated_contributors cs = some cs.reverse := by
  have hn : ∀ d ∈ cs, ∃ s, pyGet d nameKey = some (.str s) :=
    fun d hdm => hasStrName_spec (List.all_eq_true.mp hs d hdm)
  apply dedupe_of_distinct cs hn
  refine List.pairwise_map.mpr ?_
  refine hd.imp_of_mem ?_
  intro a b ha hb hne he
  obtain ⟨sa, hga⟩ := hn a ha
  obtain ⟨sb, hgb⟩ := hn b hb
  apply hne
  rw [hga, hgb]
  rw [theName_eq hga, theName_eq hgb] at he
  rw [he]

/-- C10 witness: reversal of a concrete two-record distinct-name list. -/
theorem claim_C10_distinct_reverse_witness :
    remove_duplicated_contributors [contribRec ['A'] 1, contribRec ['B'] 2]
      = some [contribRec ['A'] 1, contribRec ['B'] 2].reverse :=
  claim_C10_distinct_reverse [contribRec ['A'] 1, contribRec ['B'] 2]
    (by decide) (by decide) (by decide)

/-! ### Claims C6, C8, C9: the rewrite pipeline -/

/-- C6 counterexample: running the pipeline twice on the example artifact
does not reproduce the first run's output — the second run reverses the
already-deduplicated contributor list. -/
theorem claim_C6_counterexample : run_e (run_e content1) ≠ run_e content1 := by
  decide

/-- C6 (amended): the pipeline is not idempotent. On the concrete
three-contributor artifact of either binding name the second run's output
differs from the first run's (it reverses the deduplicated contributor
list), while the third run reproduces the first run's output: on these
artifacts the file content alternates with period two. -/
theorem claim_C6_pipeline_period_two :
    run_e (run_e (run_e content1)) = run_e content1
    ∧ run_e (run_e content1) ≠ run_e content1
    ∧ run_t (run_t (run_t content1t)) = run_t content1t
    ∧ run_t (run_t content1t) ≠ run_t content1t := by
  decide

/-- C8 counterexample: a file matching none of the four wrapper templates is
not necessarily rejected — when its whole content is valid JSON the pipeline
decodes it, dedups and rewrites the file (with different bytes), raising no
error. -/
theorem claim_C8_counterexample :
    hasSub pe1 content0 = false ∧ hasSub pe2 content0 = false
    ∧ hasSub pt1 content0 = false ∧ hasSub pt2 content0 = false
    ∧ (process_e content0).isSome = true
    ∧ run_e content0 ≠ content0 := by
  decide

/-- C8 (amended): a file matching none of the four wrapper templates whose
content does not parse as JSON (in the modelled grammar) makes the pipeline
raise before `inject`, so no bytes are written and the file keeps its
content. -/
theorem claim_C8_no_template_error (content : List Char)
    (h1 : hasSub pe1 content = false) (h2 : hasSub pe2 content = false)
    (h3 : hasSub pt1 content = false) (h4 : hasSub pt2 content = false)
    (h5 : loads content = none) :
    process_e content = none ∧ process_t content = none
    ∧ run_e content = content ∧ run_t content = content := by
  have hjs : json_source content = none := by
    unfold json_source
    simp [h1, h2, h3, h4, h5]
  have hp : ∀ compose, process_with compose content = none := by
    intro compose
    simp [process_with, hjs]
  exact ⟨hp _, hp _, by simp [run_e, process_e, hp], by simp [run_t, process_t, hp]⟩

/-- C8 witness: the amended error behaviour at a concrete template-free
non-JSON artifact. -/
theorem claim_C8_no_template_error_witness :
    process_e contentNoise = none ∧ process_t contentNoise = none
    ∧ run_e contentNoise = contentNoise ∧ run_t contentNoise = contentNoise :=
  claim_C8_no_template_error contentNoise (by decide) (by decide) (by decide)
    (by decide) (by decide)

/-- C9: when the decoded contributor collection has length `0` or `1`, the
`len(raw_contributors) > 1` guard makes the pipeline skip the
decode-mutate-encode cycle entirely and the file's content stays
byte-identical. -/
theorem claim_C9_short_collection_skip (content : List Char) (doc raw : Json) (n : Nat)
    (h1 : json_source content = some doc)
    (h2 : get_raw_contributors doc = some raw)
    (h3 : pyLen raw = some n) (h4 : n ≤ 1) :
    process_e content = some content ∧ process_t content = some content
    ∧ run_e content = content ∧ run_t content = content := by
  have hp : ∀ compose, process_with compose content = some content := by
    intro compose
    simp [process_with, h1, h2, h3, show ¬1 < n from by omega]
  exact ⟨hp _, hp _, by simp [run_e, process_e, hp], by simp [run_t, process_t, hp]⟩

/-- C9 witness: the skip at a concrete one-contributor artifact. -/
theorem claim_C9_short_collection_skip_witness :
    process_e content9 = some content9 ∧ process_t content9 = some content9
    ∧ run_e content9 = content9 ∧ run_t content9 = content9 :=
  claim_C9_short_collection_skip content9 doc9 (.arr [contribRec ['A'] 1]) 1
    (by decide) (by decide) (by decide) (by decide)

/-! ### Claim C7: whitespace added by the serializer -/

/-- A whitespace character is one of the four listed characters. -/
theorem ws_cases (c : Char) (hc : isWsChar c = true) :
    c = ' ' ∨ c = '\n' ∨ c = '\t' ∨ c = '\r' := by
  simpa [isWsChar, or_assoc] using hc

/-- Decimal digit characters are never whitespace. -/
theorem digitChar_not_ws : ∀ (m : Nat), isWsChar (Nat.digitChar m) = false
  | 0 => by decide
  | 1 => by decide
  | 2 => by decide
  | 3 => by decide
  | 4 => by decide
  | 5 => by decide
  | 6 => by decide
  | 7 => by decide
  | 8 => by decide
  | 9 => by decide
  | 10 => by decide
  | 11 => by decide
  | 12 => by decide
  | 13 => by decide
  | 14 => by decide
  | 15 => by decide
  | m + 16 => by
    have h : Nat.digitChar (m + 16) = '*' := by simp [Nat.digitChar]
    rw [h]
    decide

/-- Characters of a rendered natural number are never whitespace. -/
theorem not_ws_mem_digitsF : ∀ (fuel n : Nat) (c : Char),
    c ∈ digitsF fuel n → isWsChar c = false
  | 0, n, c => by
    intro h
    simp [digitsF] at h
  | fuel + 1, n, c => by
    intro h
    simp only [digitsF] at h
    split at h
    · rw [List.mem_singleton] at h
      subst h
      exact digitChar_not_ws n
    · rcases List.mem_append.mp h with h1 | h1
      · exact not_ws_mem_digitsF fuel _ c h1
      · rw [List.mem_singleton] at h1
        subst h1
        exact digitChar_not_ws _

/-- Characters of a rendered integer are never whitespace. -/
theorem not_ws_mem_intChars (n : Int) (c : Char) (h : c ∈ intChars n) :
    isWsChar c = false := by
  cases n with
  | ofNat m => exact not_ws_mem_digitsF _ _ c h
  | negSucc m =>
    rcases List.mem_cons.mp h with h1 | h1
    · subst h1
      decide
    · exact not_ws_mem_digitsF _ _ c h1

/-- Escaping a whitespace-free string yields a whitespace-free string. -/
theorem not_ws_mem_escape (s : List Char) (hs : s.all (fun x => !isWsChar x) = true)
    (c : Char) (h : c ∈ escape s) : isWsChar c = false := by
  unfold escape at h
  rcases List.mem_flatMap.mp h with ⟨x, hx, hcx⟩
  have hx' : isWsChar x = false := by
    have h2 := List.all_eq_true.mp hs x hx
    simpa using h2
  unfold escChar at hcx
  split at hcx
  · rcases List.mem_cons.mp hcx with h1 | h1
    · subst h1
      decide
    · rw [List.mem_singleton] at h1
      subst h1
      exact hx'
  · rw [List.mem_singleton] at hcx
    subst hcx
    exact hx'

/-- A whitespace character does not occur in a whitespace-free list. -/
theorem count_eq_zero_ws (l : List Char) (c : Char) (hc : isWsChar c = true)
    (h : ∀ x ∈ l, isWsChar x = false) : l.count c = 0 := by
  apply List.count_eq_zero_of_not_mem
  intro hm
  rw [h c hm] at hc
  exact absurd hc (by decide)

mutual

/-- Whitespace accounting for `dumps`: on a document whose strings are
whitespace-free, every whitespace character of the output is a separator
space, and there are exactly `sepCount` of them. -/
theorem count_dumps_ws : ∀ (d : Json), strsNoWs d = true → ∀ (c : Char),
    isWsChar c = true → (dumps d).count c = if c = ' ' then sepCount d else 0
  | .null => fun _ c hc => by
    rcases ws_cases c hc with h | h | h | h <;> subst h <;> decide
  | .bool true => fun _ c hc => by
    rcases ws_cases c hc with h | h | h | h <;> subst h <;> decide
  | .bool false => fun _ c hc => by
    rcases ws_cases c hc with h | h | h | h <;> subst h <;> decide
  | .int n => fun _ c hc => by
    have h0 : (intChars n).count c = 0 :=
      count_eq_zero_ws _ c hc (fun x hx => not_ws_mem_intChars n x hx)
    show (intChars n).count c = if c = ' ' then sepCount (.int n) else 0
    rw [h0]
    split <;> rfl
  | .str s => fun hs c hc => by
    have hs' : s.all (fun x => !isWsChar x) = true := hs
    have h1 : (escape s).count c = 0 :=
      count_eq_zero_ws _ c hc (fun x hx => not_ws_mem_escape s hs' x hx)
    rcases ws_cases c hc with h | h | h | h <;> subst h <;>
      simp +decide [dumps, sepCount, List.count_cons, List.count_append, h1]
  | .arr xs => fun hs c hc => by
    have hs' : strsNoWsL xs = true := hs
    have hb := count_dumpsElems_ws xs hs' c hc
    rcases ws_cases c hc with h | h | h | h <;> subst h <;>
      simp +decide [dumps, sepCount, List.count_cons, List.count_append, hb]
  | .obj kvs => fun hs c hc => by
    have hs' : strsNoWsO kvs = true := hs
    have hb := count_dumpsMembers_ws kvs hs' c hc
    rcases ws_cases c hc with h | h | h | h <;> subst h <;>
      simp +decide [dumps, sepCount, List.count_cons, List.count_append, hb]

/-- Whitespace accounting for a serialized element list. -/
theorem count_dumpsElems_ws : ∀ (xs : List Json), strsNoWsL xs = true → ∀ (c : Char),
    isWsChar c = true →
    (dumpsElems xs).count c = if c = ' ' then sepCountElems xs else 0
  | [] => fun _ c _ => by simp [dumpsElems, sepCountElems]
  | x :: t => fun hs c hc => by
    have h12 : strsNoWs x = true ∧ strsNoWsL t = true := by
      have h := hs
      simp only [strsNoWsL, Bool.and_eq_true] at h
      exact h
    have h1 := count_dumps_ws x h12.1 c hc
    have h2 := count_dumpsTail_ws t h12.2 c hc
    by_cases hcs : c = ' '
    · subst hcs
      simp [dumpsElems, sepCountElems, List.count_append, h1, h2]
    · simp [dumpsElems, sepCountElems, List.count_append, h1, h2, hcs]

/-- Whitespace accounting for elements after the first. -/
theorem count_dumpsTail_ws : ∀ (xs : List Json), strsNoWsL xs = true → ∀ (c : Char),
    isWsChar c = true →
    (dumpsTail xs).count c = if c = ' ' then sepCountTail xs else 0
  | [] => fun _ c _ => by simp [dumpsTail, sepCountTail]
  | x :: t => fun hs c hc => by
    have h12 : strsNoWs x = true ∧ strsNoWsL t = true := by
      have h := hs
      simp only [strsNoWsL, Bool.and_eq_true] at h
      exact h
    have h1 := count_dumps_ws x h12.1 c hc
    have h2 := count_dumpsTail_ws t h12.2 c hc
    by_cases hcs : c = ' '
    · subst hcs
      simp +decide [dumpsTail, sepCountTail, List.count_cons, List.count_append, h1, h2]
      omega
    · have hsp : ¬(' ' = c) := fun h => hcs h.symm
      have hcm : ¬(',' = c) := by
        rcases ws_cases c hc with h | h | h | h <;> subst h <;> decide
      simp [dumpsTail, List.count_cons, List.count_append, h1, h2, hcs, hsp, hcm]

/-- Whitespace accounting for a serialized member list. -/
theorem count_dumpsMembers_ws : ∀ (kvs : List (List Char × Json)),
    strsNoWsO kvs = true → ∀ (c : Char), isWsChar c = true →
    (dumpsMembers kvs).count c = if c = ' ' then sepCountMembers kvs else 0
  | [] => fun _ c _ => by simp [dumpsMembers, sepCountMembers]
  | (k, v) :: kvs => fun hs c hc => by
    have h3 : (k.all (fun x => !isWsChar x) = true ∧ strsNoWs v = true)
        ∧ strsNoWsO kvs = true := by
      have h := hs
      simp only [strsNoWsO, Bool.and_eq_true] at h
      exact h
    have hk : (escape k).count c = 0 :=
      count_eq_zero_ws _ c hc (fun x hx => not_ws_mem_escape k h3.1.1 x hx)
    have h1 := count_dumps_ws v h3.1.2 c hc
    have h2 := count_dumpsMTail_ws kvs h3.2 c hc
    by_cases hcs : c = ' '
    · subst hcs
      simp +decide [dumpsMembers, sepCountMembers, List.count_cons, List.count_append,
        hk, h1, h2]
      omega
    · have hsp : ¬(' ' = c) := fun h => hcs h.symm
      have hcq : ¬('"' = c) := by
        rcases ws_cases c hc with h | h | h | h <;> subst h <;> decide
      have hcl : ¬(':' = c) := by
        rcases ws_cases c hc with h | h | h | h <;> subst h <;> decide
      simp [dumpsMembers, List.count_cons, List.count_append, hk, h1, h2, hcs, hsp,
        hcq, hcl]

/-- Whitespace accounting for members after the first. -/
theorem count_dumpsMTail_ws : ∀ (kvs : List (List Char × Json)),
    strsNoWsO kvs = true → ∀ (c : Char), isWsChar c = true →
    (dumpsMTail kvs).count c = if c = ' ' then sepCountMTail kvs else 0
  | [] => fun _ c _ => by simp [dumpsMTail, sepCountMTail]
  | (k, v) :: kvs => fun hs c hc => by
    have h3 : (k.all (fun x => !isWsChar x) = true ∧ strsNoWs v = true)
        ∧ strsNoWsO kvs = true := by
      have h := hs
      simp only [strsNoWsO, Bool.and_eq_true] at h
      exact h
    have hk : (escape k).count c = 0 :=
      count_eq_zero_ws _ c hc (fun x hx => not_ws_mem_escape k h3.1.1 x hx)
    have h1 := count_dumps_ws v h3.1.2 c hc
    have h2 := count_dumpsMTail_ws kvs h3.2 c hc
    by_cases hcs : c = ' '
    · subst hcs
      simp +decide [dumpsMTail, sepCountMTail, List.count_cons, List.count_append,
        hk, h1, h2]
      omega
    · have hsp : ¬(' ' = c) := fun h => hcs h.symm
      have hcm : ¬(',' = c) := by
        rcases ws_cases c hc with h | h | h | h <;> subst h <;> decide
      have hcq : ¬('"' = c) := by
        rcases ws_cases c hc with h | h | h | h <;> subst h <;> decide
      have hcl : ¬(':' = c) := by
        rcases ws_cases c hc with h | h | h | h <;> subst h <;> decide
      simp [dumpsMTail, List.count_cons, List.count_append, hk, h1, h2, hcs, hsp,
        hcm, hcq, hcl]

end

/-- C7 counterexample: the serializer's default separators add a space after
each colon and comma, so even a document whose strings contain no whitespace
serializes with spaces in it. -/
theorem claim_C7_counterexample : strsNoWs doc7 = true ∧ ' ' ∈ dumps doc7 := by
  decide

/-- C7 (amended): for a document whose strings and keys are whitespace-free,
the serialized form contains exactly one space per comma and colon separator
(counted by `sepCount`) and no other whitespace. -/
theorem claim_C7_sep_whitespace (d : Json) (hd : strsNoWs d = true) :
    (dumps d).count ' ' = sepCount d
    ∧ ∀ c, isWsChar c = true → c ≠ ' ' → (dumps d).count c = 0 := by
  constructor
  · have h := count_dumps_ws d hd ' ' (by decide)
    simpa using h
  · intro c hc hcs
    have h := count_dumps_ws d hd c hc
    rw [h, if_neg hcs]

/-- C7 witness: the separator-space accounting at the concrete document. -/
theorem claim_C7_sep_whitespace_witness :
    (dumps doc7).count ' ' = sepCount doc7 ∧ (dumps doc7).count '\n' = 0 :=
  ⟨(claim_C7_sep_whitespace doc7 (by decide)).1,
   (claim_C7_sep_whitespace doc7 (by decide)).2 '\n' (by decide) (by decide)⟩

end PostProcess
